import Mathlib

/-! Stencil matrix builders and the matrix-file driver.

A shallow embedding of

* `create_poisson2d_matrix`      (examples/poisson2d.c),
* `create_heat_equation_matrix`  (examples/heat_equation.c),
* `read_matrix_from_mm`, `main`  (examples/read_matrix_file.c).

Modelling conventions.

* `PetscInt` is a mathematical integer, written `Int`.  C's `/` and `%` are the truncating
  `Int.tdiv` and `Int.tmod`.  Signed overflow is undefined in C, so all results
  are about sizes whose products fit the machine type.
* `PetscScalar` / `PetscReal` are exact rationals, written `ℚ`; rounding of the floating
  point operations is outside the model.
* The distributed matrix object is an external library object.  The builders
  are therefore written against a record of the library operations they call
  (`MatAPI`); every call whose result the source guards with `CHKERRQ`
  returns `Except PetscErrorCode _`, and an error ends the builder at once.
* The local arrays `col[]`, `v[]` together with `count` are one list of
  `(column, value)` pairs: `v[count] = x; col[count] = c; count++` appends
  `(c, x)`, and the call `MatSetValues(A, 1, &i, count, col, v, INSERT_VALUES)`
  receives the row `i` and that list.
-/

namespace PetscExamples

abbrev PetscErrorCode := Nat

/-- The first `count` slots of `col[]` and `v[]`, in slot order. -/
abbrev RowEntries := List (Int × ℚ)

/-- The library operations on a matrix object used by the two builders.
`MatSetUp m n` stands for the creation sequence
`MatCreate; MatSetSizes(PETSC_DECIDE, PETSC_DECIDE, m, n); MatSetFromOptions; MatSetUp`. -/
structure MatAPI (M : Type) where
  MatSetUp : Int → Int → Except PetscErrorCode M
  MatGetOwnershipRange : M → Except PetscErrorCode (Int × Int)
  MatSetValues : M → Int → RowEntries → Except PetscErrorCode M
  MatAssemblyBegin : M → Except PetscErrorCode M
  MatAssemblyEnd : M → Except PetscErrorCode M

/-! ## examples/poisson2d.c -/

/-- Lines 20-45 of poisson2d.c: the arrays handed to `MatSetValues` for row `i`. -/
def poisson2d_row (nx ny i : Int) : RowEntries :=
  let ix := Int.tmod i nx
  let iy := Int.tdiv i nx
  -- Center
  let s0 : RowEntries := [(i, 4)]
  -- Left
  let s1 := if ix > 0 then s0 ++ [(i - 1, -1)] else s0
  -- Right
  let s2 := if ix < nx - 1 then s1 ++ [(i + 1, -1)] else s1
  -- Bottom
  let s3 := if iy > 0 then s2 ++ [(i - nx, -1)] else s2
  -- Top
  let s4 := if iy < ny - 1 then s3 ++ [(i + nx, -1)] else s3
  s4

/-- The loop `for (i = Istart; i < Iend; i++)` of poisson2d.c, entered at `i`. -/
def poisson2d_loop {M : Type} (P : MatAPI M) (nx ny Iend : Int) (i : Int) (A : M) :
    Except PetscErrorCode M :=
  if i < Iend then
    match P.MatSetValues A i (poisson2d_row nx ny i) with
    | .error e => .error e
    | .ok A1 => poisson2d_loop P nx ny Iend (i + 1) A1
  else .ok A
termination_by (Iend - i).toNat
decreasing_by omega

/-- The function `create_poisson2d_matrix(nx, ny, &A)`. -/
def create_poisson2d_matrix {M : Type} (P : MatAPI M) (nx ny : Int) :
    Except PetscErrorCode M :=
  let n := nx * ny
  match P.MatSetUp n n with
  | .error e => .error e
  | .ok A0 =>
    match P.MatGetOwnershipRange A0 with
    | .error e => .error e
    | .ok (Istart, Iend) =>
      match poisson2d_loop P nx ny Iend Istart A0 with
      | .error e => .error e
      | .ok A1 =>
        match P.MatAssemblyBegin A1 with
        | .error e => .error e
        | .ok A2 => P.MatAssemblyEnd A2

/-! ## examples/heat_equation.c -/

/-- Lines 19-32 of heat_equation.c: the body of the loop for row `i`. -/
def heat_equation_step {M : Type} (P : MatAPI M) (n : Int) (alpha : ℚ)
    (i : Int) (A : M) : Except PetscErrorCode M :=
  if i = 0 then
    P.MatSetValues A i [(0, 1 + 2 * alpha), (1, -alpha)]
  else if i = n - 1 then
    P.MatSetValues A i [(n - 2, -alpha), (n - 1, 1 + 2 * alpha)]
  else
    P.MatSetValues A i [(i - 1, -alpha), (i, 1 + 2 * alpha), (i + 1, -alpha)]

/-- The loop `for (i = Istart; i < Iend; i++)` of heat_equation.c, entered at `i`. -/
def heat_equation_loop {M : Type} (P : MatAPI M) (n : Int) (alpha : ℚ)
    (Iend : Int) (i : Int) (A : M) : Except PetscErrorCode M :=
  if i < Iend then
    match heat_equation_step P n alpha i A with
    | .error e => .error e
    | .ok A1 => heat_equation_loop P n alpha Iend (i + 1) A1
  else .ok A
termination_by (Iend - i).toNat
decreasing_by omega

/-- The function `create_heat_equation_matrix(n, alpha, &A)`. -/
def create_heat_equation_matrix {M : Type} (P : MatAPI M) (n : Int) (alpha : ℚ) :
    Except PetscErrorCode M :=
  match P.MatSetUp n n with
  | .error e => .error e
  | .ok A0 =>
    match P.MatGetOwnershipRange A0 with
    | .error e => .error e
    | .ok (Istart, Iend) =>
      match heat_equation_loop P n alpha Iend Istart A0 with
      | .error e => .error e
      | .ok A1 =>
        match P.MatAssemblyBegin A1 with
        | .error e => .error e
        | .ok A2 => P.MatAssemblyEnd A2

/-- The arrays `heat_equation_step` hands to `MatSetValues` for row `i`. -/
def heat_equation_row (n : Int) (alpha : ℚ) (i : Int) : RowEntries :=
  if i = 0 then [(0, 1 + 2 * alpha), (1, -alpha)]
  else if i = n - 1 then [(n - 2, -alpha), (n - 1, 1 + 2 * alpha)]
  else [(i - 1, -alpha), (i, 1 + 2 * alpha), (i + 1, -alpha)]

/-! ## Two matrix objects for the builders to run against -/

/-- One `MatSetValues` call as the library sees it: the row and its entries. -/
abbrev InsertCall := Int × RowEntries

/-- A matrix object that accepts every call and records, in order, the
arguments of each `MatSetValues` call.  The process owns rows
`[Istart, Iend)`.  What a builder run against it returns is the sequence of
inserts the builder issues, i.e. what it stages. -/
def stagingLog (Istart Iend : Int) : MatAPI (List InsertCall) where
  MatSetUp _ _ := .ok []
  MatGetOwnershipRange _ := .ok (Istart, Iend)
  MatSetValues A i es := .ok (A ++ [(i, es)])
  MatAssemblyBegin A := .ok A
  MatAssemblyEnd A := .ok A

/-- State of the checked matrix object: global size, the accepted staged
entries `(row, col, value)` in insertion order, and whether it is assembled. -/
structure Mat where
  rows : Int
  cols : Int
  staged : List (Int × Int × ℚ)
  assembled : Bool
deriving DecidableEq

def PETSC_ERR_ARG_OUTOFRANGE : PetscErrorCode := 63
def PETSC_ERR_ARG_WRONGSTATE : PetscErrorCode := 73

/-- Range test of the insert operation: row in `[0, rows)`, every column in `[0, cols)`. -/
def indicesInRange (m n : Int) (i : Int) (es : RowEntries) : Bool :=
  decide (0 ≤ i) && decide (i < m) &&
    es.all (fun p => decide (0 ≤ p.1) && decide (p.1 < n))

/-- Modelled from the spec: the external matrix library, of which the
repository holds no source.  Section 4.1 of the specification: insertion
after assembly is an error, a row or column index outside `[0, n)` is an
error, otherwise the entries are staged; assembly makes the matrix
read-only.  The process owns rows `[Istart, Iend)`. -/
def checkedMat (Istart Iend : Int) : MatAPI Mat where
  MatSetUp m n := .ok ⟨m, n, [], false⟩
  MatGetOwnershipRange _ := .ok (Istart, Iend)
  MatSetValues A i es :=
    if A.assembled then .error PETSC_ERR_ARG_WRONGSTATE
    else if indicesInRange A.rows A.cols i es then
      .ok ⟨A.rows, A.cols, A.staged ++ es.map (fun p => (i, p.1, p.2)), A.assembled⟩
    else .error PETSC_ERR_ARG_OUTOFRANGE
  MatAssemblyBegin A := .ok A
  MatAssemblyEnd A := .ok ⟨A.rows, A.cols, A.staged, true⟩

/-! ## Reading a staged log -/

/-- Rows `Istart, Istart+1, …, Iend-1`. -/
def ownedRows (Istart Iend : Int) : List Int :=
  (List.range (Iend - Istart).toNat).map (fun (k : Nat) => Istart + (k : Int))

/-- All entries staged for row `i`, in staging order. -/
def stagedRow (log : List InsertCall) (i : Int) : RowEntries :=
  ((log.filter (fun c => c.1 = i)).map (fun c => c.2)).flatten

/-- Number of `MatSetValues` calls issued for row `i`. -/
def insertCalls (log : List InsertCall) (i : Int) : Nat :=
  (log.filter (fun c => c.1 = i)).length

/-- The staged entries as `(row, col, value)` triples, in staging order. -/
def logEntries (log : List InsertCall) : List (Int × Int × ℚ) :=
  (log.map (fun c => c.2.map (fun p => (c.1, p.1, p.2)))).flatten

/-- Entry `(i, j)` after assembly under `INSERT_VALUES`: the last value staged
at that position, `0` where nothing was staged. -/
def assembledInsert (es : List (Int × Int × ℚ)) (i j : Int) :
    ℚ :=
  match (es.filter (fun e => e.1 = i ∧ e.2.1 = j)).getLast? with
  | some e => e.2.2
  | none => 0

/-- Entry `(i, j)` after assembly under `ADD_VALUES`: the sum of the values
staged at that position. -/
def assembledAdd (es : List (Int × Int × ℚ)) (i j : Int) :
    ℚ :=
  ((es.filter (fun e => e.1 = i ∧ e.2.1 = j)).map (fun e => e.2.2)).sum

/-- The staged log of a builder run, `[]` if the run ended in an error. -/
def logOf (r : Except PetscErrorCode (List InsertCall)) : List InsertCall :=
  match r with
  | .ok log => log
  | .error _ => []

/-- Staged inserts of `create_poisson2d_matrix` on the process owning `[Istart, Iend)`. -/
def poisson2d_staged (nx ny Istart Iend : Int) : List InsertCall :=
  logOf (create_poisson2d_matrix (stagingLog Istart Iend) nx ny)

/-- Staged inserts of `create_heat_equation_matrix` on the process owning `[Istart, Iend)`. -/
def heat_equation_staged (n : Int) (alpha : ℚ) (Istart Iend : Int) :
    List InsertCall :=
  logOf (create_heat_equation_matrix (stagingLog Istart Iend) n alpha)

/-- Dense row `i` of the matrix that `create_heat_equation_matrix` builds on a
single process owning `[0, n)`: the entries of the built object, assembled
under `INSERT_VALUES`, at its columns `0 … cols-1`.  It is `none` when the
builder returns an error, in which case no matrix is built. -/
def heat_equation_dense_row (n : Int) (alpha : ℚ) (i : Int) : Option (List ℚ) :=
  match create_heat_equation_matrix (checkedMat 0 n) n alpha with
  | .ok A =>
    some ((List.range A.cols.toNat).map (fun (j : Nat) => assembledInsert A.staged i (j : Int)))
  | .error _ => none

/-! ## Vocabulary of the grid claims -/

/-- The cell of row `i` lies in the first or last column of the `nx × ny` grid. -/
def onSideBoundary (nx i : Int) : Prop := i % nx = 0 ∨ i % nx = nx - 1

/-- The cell of row `i` lies in the first or last line of the `nx × ny` grid. -/
def onEndBoundary (nx ny i : Int) : Prop := i / nx = 0 ∨ i / nx = ny - 1

/-- The cell of row `i` is one of the four grid corners. -/
def isCorner (nx ny i : Int) : Prop := onSideBoundary nx i ∧ onEndBoundary nx ny i

/-- The cell of row `i` is on the grid boundary but is not a corner. -/
def isEdge (nx ny i : Int) : Prop :=
  (onSideBoundary nx i ∧ ¬ onEndBoundary nx ny i) ∨ (¬ onSideBoundary nx i ∧ onEndBoundary nx ny i)

instance (nx i : Int) : Decidable (onSideBoundary nx i) := by
  unfold onSideBoundary; infer_instance

instance (nx ny i : Int) : Decidable (onEndBoundary nx ny i) := by
  unfold onEndBoundary; infer_instance

instance (nx ny i : Int) : Decidable (isCorner nx ny i) := by
  unfold isCorner; infer_instance

instance (nx ny i : Int) : Decidable (isEdge nx ny i) := by
  unfold isEdge; infer_instance

/-! ## Vocabulary of the matrix claims -/

/-- Ownership ranges `[s, e)` of consecutive ranks that tile `[lo, hi)`: the
first starts at `lo`, each next one starts where the previous ends, the last
ends at `hi`.  Such ranges are pairwise disjoint and their union is `[lo, hi)`. -/
def tilesRange : List (Int × Int) → Int → Int → Prop
  | [], lo, hi => lo = hi
  | r :: rest, lo, hi => r.1 = lo ∧ r.1 ≤ r.2 ∧ tilesRange rest r.2 hi

/-- The heat matrix as assembled (under `INSERT_VALUES`) from what
`create_heat_equation_matrix` stages on a process owning `[0, n)`. -/
def heat_equation_matrix (n : Int) (alpha : ℚ) : Int → Int → ℚ :=
  assembledInsert (logEntries (heat_equation_staged n alpha 0 n))

/-- Sum of the absolute values of the off-diagonal entries of row `i` of an
`n × n` matrix `a`. -/
def offDiagonalAbsSum (n : Int) (a : Int → Int → ℚ) (i : Int) : ℚ :=
  Finset.sum (Finset.range n.toNat) (fun j => if (j : Int) = i then 0 else |a i (j : Int)|)

/-! ## examples/read_matrix_file.c -/

/-- The calls `main` and `read_matrix_from_mm` make to their collaborators. -/
inductive Call where
  | solver_initialize
  | PetscOptionsGetString
  | PetscPrintf (msg : String)
  | PetscViewerBinaryOpen
  | MatCreate
  | MatSetFromOptions
  | MatLoad
  | PetscViewerDestroy
  | MatGetSize
  | create_rhs_vector (n : Int)
  | solver_create
  | solver_set_preconditioner
  | solver_setup
  | solver_solve
  | solver_print_info
  | solver_destroy
  | MatDestroy
  | VecDestroy
  | solver_finalize
deriving DecidableEq

/-- What the collaborators answer during one run: the return code of each
call, and the global size `m × n` that `MatGetSize` reports for the loaded
matrix. -/
structure World where
  ret : Call → PetscErrorCode
  m : Int
  n : Int

def readingMessage : String := "Reading matrix from file: %s\n"

def notSquareMessage : String := "Error: Matrix must be square\n"

/-- A run of statements `ierr = f(...); CHKERRQ(ierr);`, one per listed call:
each call is appended to the trace `tr`; the first non-zero return code ends
the run and is returned, otherwise the code is `0`. -/
def callsCHKERRQ (w : World) : List Call → List Call → PetscErrorCode × List Call
  | [], tr => (0, tr)
  | c :: cs, tr =>
    if w.ret c ≠ 0 then (w.ret c, tr ++ [c]) else callsCHKERRQ w cs (tr ++ [c])

/-- The function `read_matrix_from_mm(filename, &A)`. -/
def read_matrix_from_mm (w : World) (tr : List Call) : PetscErrorCode × List Call :=
  callsCHKERRQ w
    [Call.PetscViewerBinaryOpen, Call.MatCreate, Call.MatSetFromOptions, Call.MatLoad,
      Call.PetscViewerDestroy] tr

/-- The function `main` of read_matrix_file.c: exit status and trace of calls. -/
def read_matrix_file_main (w : World) : PetscErrorCode × List Call :=
  let r1 := callsCHKERRQ w [Call.solver_initialize, Call.PetscOptionsGetString] []
  if r1.1 ≠ 0 then r1 else
  let tr1 := r1.2 ++ [Call.PetscPrintf readingMessage]
  -- Чтение матрицы из файла
  let r2 := read_matrix_from_mm w tr1
  if r2.1 ≠ 0 then r2 else
  -- Получение размера матрицы
  let r3 := callsCHKERRQ w [Call.MatGetSize] r2.2
  if r3.1 ≠ 0 then r3 else
  if w.m ≠ w.n then
    (1, r3.2 ++ [Call.PetscPrintf notSquareMessage])
  else
    let r4 := callsCHKERRQ w
      [Call.create_rhs_vector w.n, Call.solver_create, Call.solver_set_preconditioner,
        Call.solver_setup, Call.solver_solve, Call.solver_print_info, Call.solver_destroy,
        Call.MatDestroy, Call.VecDestroy] r3.2
    if r4.1 ≠ 0 then r4 else
    (w.ret Call.solver_finalize, r4.2 ++ [Call.solver_finalize])

/-- The calls of the solver pipeline that must not happen on a non-square matrix. -/
def isSolveCall : Call → Bool
  | Call.create_rhs_vector _ => true
  | Call.solver_create => true
  | Call.solver_setup => true
  | Call.solver_solve => true
  | _ => false

/-- The calls `main` makes up to and including `MatGetSize`. -/
def loadingCalls : List Call :=
  [Call.solver_initialize, Call.PetscOptionsGetString, Call.PetscPrintf readingMessage,
    Call.PetscViewerBinaryOpen, Call.MatCreate, Call.MatSetFromOptions, Call.MatLoad,
    Call.PetscViewerDestroy, Call.MatGetSize]

/-- The calls `main` makes after the square test, up to `VecDestroy`. -/
def solvingCalls (n : Int) : List Call :=
  [Call.create_rhs_vector n, Call.solver_create, Call.solver_set_preconditioner,
    Call.solver_setup, Call.solver_solve, Call.solver_print_info, Call.solver_destroy,
    Call.MatDestroy, Call.VecDestroy]

/-- A world in which every call succeeds and the loaded matrix is `m × n`. -/
def allSucceed (m n : Int) : World := ⟨fun _ => 0, m, n⟩

/-! ## Generic facts on the loops -/

/-- Issue one insert per listed row, stopping at the first error. -/
def stageRows {M : Type} (ins : M → Int → RowEntries → Except PetscErrorCode M)
    (row : Int → RowEntries) : List Int → M → Except PetscErrorCode M
  | [], A => .ok A
  | i :: rest, A =>
    match ins A i (row i) with
    | .error e => .error e
    | .ok A1 => stageRows ins row rest A1

theorem ownedRows_of_le {a b : Int} (h : b ≤ a) : ownedRows a b = [] := by
  have : (b - a).toNat = 0 := by omega
  simp [ownedRows, this]

theorem ownedRows_of_lt {a b : Int} (h : a < b) :
    ownedRows a b = a :: ownedRows (a + 1) b := by
  have h1 : (b - a).toNat = (b - (a + 1)).toNat + 1 := by omega
  unfold ownedRows
  rw [h1, List.range_succ_eq_map]
  simp only [List.map_cons, List.map_map]
  congr 1
  · simp
  · apply List.map_congr_left
    intro k _
    simp only [Function.comp, Nat.succ_eq_add_one]
    push_cast
    omega

theorem mem_ownedRows {a b i : Int} : i ∈ ownedRows a b ↔ a ≤ i ∧ i < b := by
  unfold ownedRows
  simp only [List.mem_map, List.mem_range]
  constructor
  · rintro ⟨k, hk, rfl⟩
    omega
  · rintro ⟨h1, h2⟩
    exact ⟨(i - a).toNat, by omega, by omega⟩

theorem heat_equation_step_eq {M : Type} (P : MatAPI M) (n : Int) (alpha : ℚ)
    (i : Int) (A : M) :
    heat_equation_step P n alpha i A = P.MatSetValues A i (heat_equation_row n alpha i) := by
  unfold heat_equation_step heat_equation_row
  split_ifs <;> rfl

theorem poisson2d_loop_eq {M : Type} (P : MatAPI M) (nx ny Iend : Int) :
    ∀ (k : Nat) (i : Int) (A : M), (Iend - i).toNat = k →
      poisson2d_loop P nx ny Iend i A
        = stageRows P.MatSetValues (poisson2d_row nx ny) (ownedRows i Iend) A := by
  intro k
  induction k with
  | zero =>
    intro i A hk
    have hle : Iend ≤ i := by omega
    rw [poisson2d_loop, if_neg (by omega), ownedRows_of_le hle]
    rfl
  | succ k ih =>
    intro i A hk
    have hlt : i < Iend := by omega
    rw [poisson2d_loop, if_pos hlt, ownedRows_of_lt hlt]
    simp only [stageRows]
    cases P.MatSetValues A i (poisson2d_row nx ny i) with
    | error e => rfl
    | ok A1 => exact ih (i + 1) A1 (by omega)

theorem heat_equation_loop_eq {M : Type} (P : MatAPI M) (n : Int) (alpha : ℚ)
    (Iend : Int) :
    ∀ (k : Nat) (i : Int) (A : M), (Iend - i).toNat = k →
      heat_equation_loop P n alpha Iend i A
        = stageRows P.MatSetValues (heat_equation_row n alpha) (ownedRows i Iend) A := by
  intro k
  induction k with
  | zero =>
    intro i A hk
    have hle : Iend ≤ i := by omega
    rw [heat_equation_loop, if_neg (by omega), ownedRows_of_le hle]
    rfl
  | succ k ih =>
    intro i A hk
    have hlt : i < Iend := by omega
    rw [heat_equation_loop, if_pos hlt, ownedRows_of_lt hlt, heat_equation_step_eq]
    simp only [stageRows]
    cases P.MatSetValues A i (heat_equation_row n alpha i) with
    | error e => rfl
    | ok A1 => exact ih (i + 1) A1 (by omega)

theorem stageRows_stagingLog (Istart Iend : Int) (row : Int → RowEntries) :
    ∀ (rs : List Int) (A : List InsertCall),
      stageRows (stagingLog Istart Iend).MatSetValues row rs A
        = .ok (A ++ rs.map (fun i => (i, row i))) := by
  intro rs
  induction rs with
  | nil => intro A; simp [stageRows]
  | cons r rs ih =>
    intro A
    simp only [stageRows, stagingLog]
    have := ih (A ++ [(r, row r)])
    simp only [stagingLog] at this
    rw [this]
    simp

/-- What the Poisson builder returns when run against the staging log. -/
theorem create_poisson2d_matrix_stagingLog (nx ny Istart Iend : Int) :
    create_poisson2d_matrix (stagingLog Istart Iend) nx ny
      = .ok ((ownedRows Istart Iend).map (fun i => (i, poisson2d_row nx ny i))) := by
  unfold create_poisson2d_matrix
  simp only [stagingLog]
  have h := poisson2d_loop_eq (stagingLog Istart Iend) nx ny Iend _ Istart [] rfl
  rw [stageRows_stagingLog] at h
  simp only [stagingLog, List.nil_append] at h
  rw [h]

/-- What the heat builder returns when run against the staging log. -/
theorem create_heat_equation_matrix_stagingLog (n : Int) (alpha : ℚ)
    (Istart Iend : Int) :
    create_heat_equation_matrix (stagingLog Istart Iend) n alpha
      = .ok ((ownedRows Istart Iend).map (fun i => (i, heat_equation_row n alpha i))) := by
  unfold create_heat_equation_matrix
  simp only [stagingLog]
  have h := heat_equation_loop_eq (stagingLog Istart Iend) n alpha Iend _ Istart [] rfl
  rw [stageRows_stagingLog] at h
  simp only [stagingLog, List.nil_append] at h
  rw [h]

theorem poisson2d_staged_eq (nx ny Istart Iend : Int) :
    poisson2d_staged nx ny Istart Iend
      = (ownedRows Istart Iend).map (fun i => (i, poisson2d_row nx ny i)) := by
  simp [poisson2d_staged, create_poisson2d_matrix_stagingLog, logOf]

theorem heat_equation_staged_eq (n : Int) (alpha : ℚ) (Istart Iend : Int) :
    heat_equation_staged n alpha Istart Iend
      = (ownedRows Istart Iend).map (fun i => (i, heat_equation_row n alpha i)) := by
  simp [heat_equation_staged, create_heat_equation_matrix_stagingLog, logOf]

theorem filter_ownedRows (row : Int → RowEntries) (i : Int) :
    ∀ (k : Nat) (a b : Int), (b - a).toNat = k →
      ((ownedRows a b).map (fun r => (r, row r))).filter (fun c => c.1 = i)
        = if a ≤ i ∧ i < b then [(i, row i)] else [] := by
  intro k
  induction k with
  | zero =>
    intro a b hk
    have hle : b ≤ a := by omega
    rw [ownedRows_of_le hle, if_neg (by omega)]
    rfl
  | succ k ih =>
    intro a b hk
    have hlt : a < b := by omega
    rw [ownedRows_of_lt hlt, List.map_cons, List.filter_cons, ih (a + 1) b (by omega)]
    by_cases hai : a = i
    · subst hai
      simp [hlt]
    · have h1 : ¬ decide ((a, row a).1 = i) = true := by simpa using hai
      rw [if_neg h1]
      by_cases hr : a ≤ i ∧ i < b
      · rw [if_pos hr, if_pos (by omega)]
      · rw [if_neg hr, if_neg (by omega)]

theorem stagedRow_ownedRows (row : Int → RowEntries) (a b i : Int) :
    stagedRow ((ownedRows a b).map (fun r => (r, row r))) i
      = if a ≤ i ∧ i < b then row i else [] := by
  unfold stagedRow
  rw [filter_ownedRows row i _ a b rfl]
  split_ifs <;> simp

theorem insertCalls_ownedRows (row : Int → RowEntries) (a b i : Int) :
    insertCalls ((ownedRows a b).map (fun r => (r, row r))) i
      = if a ≤ i ∧ i < b then 1 else 0 := by
  unfold insertCalls
  rw [filter_ownedRows row i _ a b rfl]
  split_ifs <;> simp

/-! ## Facts on the Poisson stencil -/

theorem poisson2d_row_append (nx ny i : Int) :
    poisson2d_row nx ny i =
      [(i, (4 : ℚ))] ++ (if 0 < Int.tmod i nx then [(i - 1, (-1 : ℚ))] else [])
          ++ (if Int.tmod i nx < nx - 1 then [(i + 1, (-1 : ℚ))] else [])
          ++ (if 0 < Int.tdiv i nx then [(i - nx, (-1 : ℚ))] else [])
          ++ (if Int.tdiv i nx < ny - 1 then [(i + nx, (-1 : ℚ))] else []) := by
  unfold poisson2d_row
  simp only [gt_iff_lt]
  split_ifs <;> simp

theorem mem_ite_singleton {α : Type} (p : Prop) [Decidable p] (x y : α) :
    x ∈ (if p then [y] else []) ↔ p ∧ x = y := by
  split_ifs with h <;> simp [h]

theorem mem_poisson2d_row (nx ny i c : Int) (v : ℚ) :
    (c, v) ∈ poisson2d_row nx ny i ↔
      (c = i ∧ v = 4) ∨
      (v = -1 ∧ ((c = i - 1 ∧ 0 < Int.tmod i nx) ∨ (c = i + 1 ∧ Int.tmod i nx < nx - 1) ∨
        (c = i - nx ∧ 0 < Int.tdiv i nx) ∨ (c = i + nx ∧ Int.tdiv i nx < ny - 1))) := by
  rw [poisson2d_row_append]
  simp only [List.mem_append, mem_ite_singleton, List.mem_singleton, Prod.mk.injEq]
  tauto

theorem poisson2d_row_cols (nx ny i : Int) :
    (poisson2d_row nx ny i).map (fun p => p.1) =
      [i] ++ (if 0 < Int.tmod i nx then [i - 1] else [])
          ++ (if Int.tmod i nx < nx - 1 then [i + 1] else [])
          ++ (if 0 < Int.tdiv i nx then [i - nx] else [])
          ++ (if Int.tdiv i nx < ny - 1 then [i + nx] else []) := by
  rw [poisson2d_row_append]
  simp only [List.map_append, List.map_cons, List.map_nil]
  split_ifs <;> rfl

/-- Row-major decomposition of a row index of an `nx × ny` grid. -/
theorem grid_index {nx ny i : Int} (hnx : 1 ≤ nx) (hi0 : 0 ≤ i) (hi : i < nx * ny) :
    Int.tmod i nx = i % nx ∧ Int.tdiv i nx = i / nx ∧
      0 ≤ i % nx ∧ i % nx < nx ∧ 0 ≤ i / nx ∧ i / nx < ny ∧ i = nx * (i / nx) + i % nx := by
  have hpos : 0 < nx := by omega
  refine ⟨Int.tmod_eq_emod hi0 (by omega), Int.tdiv_eq_ediv hi0 (by omega),
    Int.emod_nonneg _ (by omega), Int.emod_lt_of_pos _ hpos, Int.ediv_nonneg hi0 (by omega),
    ?_, (Int.ediv_add_emod i nx).symm⟩
  exact Int.ediv_lt_of_lt_mul hpos (by rw [Int.mul_comm]; exact hi)

/-- Quotient and remainder of a row-major index `nx * q + r`. -/
theorem grid_index_unique {nx q r : Int} (h0 : 0 ≤ r) (h1 : r < nx) :
    (nx * q + r) / nx = q ∧ (nx * q + r) % nx = r := by
  have hne : nx ≠ 0 := by omega
  constructor
  · rw [Int.add_comm, Int.add_mul_ediv_left _ _ hne, Int.ediv_eq_zero_of_lt h0 h1]
    simp
  · rw [Int.add_comm, Int.add_mul_emod_self_left, Int.emod_eq_of_lt h0 h1]

theorem mem_poisson2d_row_grid {nx ny i : Int} (hnx : 1 ≤ nx) (hi0 : 0 ≤ i)
    (hi : i < nx * ny) (c : Int) (v : ℚ) :
    (c, v) ∈ poisson2d_row nx ny i ↔
      (c = i ∧ v = 4) ∨
      (v = -1 ∧ ((c = i - 1 ∧ 0 < i % nx) ∨ (c = i + 1 ∧ i % nx < nx - 1) ∨
        (c = i - nx ∧ 0 < i / nx) ∨ (c = i + nx ∧ i / nx < ny - 1))) := by
  obtain ⟨hm, hd, -⟩ := grid_index hnx hi0 hi
  rw [mem_poisson2d_row, hm, hd]

theorem poisson2d_row_nodup {nx ny i : Int} (hnx : 1 ≤ nx) (hi0 : 0 ≤ i) :
    ((poisson2d_row nx ny i).map (fun p => p.1)).Nodup := by
  have hm : Int.tmod i nx = i % nx := Int.tmod_eq_emod hi0 (by omega)
  have h1 : 0 ≤ i % nx := Int.emod_nonneg _ (by omega)
  have h2 : i % nx < nx := Int.emod_lt_of_pos _ (by omega)
  rw [poisson2d_row_cols, hm]
  split_ifs <;> simp <;> omega

/-- The off-diagonal entries of a row sit at the in-grid 4-neighbours of its cell. -/
theorem poisson2d_row_neighbours {nx ny i : Int} (hnx : 1 ≤ nx) (hi0 : 0 ≤ i)
    (hi : i < nx * ny) (c : Int) :
    (c, (-1 : ℚ)) ∈ poisson2d_row nx ny i ↔
      ∃ jx jy : Int, 0 ≤ jx ∧ jx < nx ∧ 0 ≤ jy ∧ jy < ny ∧ c = jy * nx + jx ∧
        ((jy = i / nx ∧ (jx = i % nx - 1 ∨ jx = i % nx + 1)) ∨
         (jx = i % nx ∧ (jy = i / nx - 1 ∨ jy = i / nx + 1))) := by
  obtain ⟨-, -, h1, h2, h3, h4, h5⟩ := grid_index hnx hi0 hi
  rw [mem_poisson2d_row_grid hnx hi0 hi]
  have h4' : (4 : ℚ) ≠ -1 := by norm_num
  generalize i / nx = q at *
  generalize i % nx = r at *
  constructor
  · rintro (⟨-, h⟩ | ⟨-, (⟨rfl, h⟩ | ⟨rfl, h⟩ | ⟨rfl, h⟩ | ⟨rfl, h⟩)⟩)
    · exact absurd h.symm h4'
    · exact ⟨r - 1, q, by omega, by omega, h3, h4, by rw [h5]; ring, Or.inl ⟨rfl, Or.inl rfl⟩⟩
    · exact ⟨r + 1, q, by omega, by omega, h3, h4, by rw [h5]; ring, Or.inl ⟨rfl, Or.inr rfl⟩⟩
    · exact ⟨r, q - 1, h1, h2, by omega, by omega, by rw [h5]; ring, Or.inr ⟨rfl, Or.inl rfl⟩⟩
    · exact ⟨r, q + 1, h1, h2, by omega, by omega, by rw [h5]; ring, Or.inr ⟨rfl, Or.inr rfl⟩⟩
  · rintro ⟨jx, jy, a1, a2, a3, a4, rfl, (⟨rfl, (rfl | rfl)⟩ | ⟨rfl, (rfl | rfl)⟩)⟩
    · exact Or.inr ⟨rfl, Or.inl ⟨by rw [h5]; ring, by omega⟩⟩
    · exact Or.inr ⟨rfl, Or.inr (Or.inl ⟨by rw [h5]; ring, by omega⟩)⟩
    · exact Or.inr ⟨rfl, Or.inr (Or.inr (Or.inl ⟨by rw [h5]; ring, by omega⟩))⟩
    · exact Or.inr ⟨rfl, Or.inr (Or.inr (Or.inr ⟨by rw [h5]; ring, by omega⟩))⟩

theorem stageRows_checkedMat (Istart Iend m n : Int) (row : Int → RowEntries) :
    ∀ (rs : List Int) (es : List (Int × Int × ℚ)),
      (∀ r ∈ rs, indicesInRange m n r (row r) = true) →
      stageRows (checkedMat Istart Iend).MatSetValues row rs ⟨m, n, es, false⟩
        = .ok ⟨m, n, es ++ logEntries (rs.map (fun r => (r, row r))), false⟩ := by
  intro rs
  induction rs with
  | nil => intro es _; simp [stageRows, logEntries]
  | cons r rs ih =>
    intro es h
    have hr : indicesInRange m n r (row r) = true := h r (List.mem_cons_self _ _)
    have hrest := ih (es ++ (row r).map (fun p => (r, p.1, p.2)))
      (fun x hx => h x (List.mem_cons_of_mem _ hx))
    simp only [stageRows, checkedMat, hr, if_true, Bool.false_eq_true, if_false]
    simp only [checkedMat] at hrest
    rw [hrest]
    simp [logEntries]

theorem indicesInRange_iff (m n i : Int) (es : RowEntries) :
    indicesInRange m n i es = true ↔
      (0 ≤ i ∧ i < m) ∧ ∀ p ∈ es, 0 ≤ p.1 ∧ p.1 < n := by
  simp [indicesInRange, List.all_eq_true, and_assoc]

/-- Every column the Poisson stencil names for a row of the grid is a row of the grid. -/
theorem poisson2d_row_inRange {nx ny i : Int} (hnx : 1 ≤ nx) (hi0 : 0 ≤ i)
    (hi : i < nx * ny) : ∀ p ∈ poisson2d_row nx ny i, 0 ≤ p.1 ∧ p.1 < nx * ny := by
  rintro ⟨c, v⟩ hp
  rw [mem_poisson2d_row_grid hnx hi0 hi] at hp
  obtain ⟨-, -, h1, h2, h3, h4, h5⟩ := grid_index hnx hi0 hi
  have hq : nx * (i / nx + 1) ≤ nx * ny :=
    Int.mul_le_mul_of_nonneg_left (by omega) (by omega)
  have hq2 : nx * (i / nx + 1 + 1) ≤ nx * ny → i + nx < nx * ny := by
    intro h
    rw [Int.mul_add, Int.mul_add] at h
    omega
  rw [Int.mul_add] at hq
  have hnq : 0 ≤ nx * (i / nx) := Int.mul_nonneg (by omega) h3
  simp only
  rcases hp with ⟨rfl, -⟩ | ⟨-, (⟨rfl, h⟩ | ⟨rfl, h⟩ | ⟨rfl, h⟩ | ⟨rfl, h⟩)⟩
  · exact ⟨hi0, hi⟩
  · omega
  · omega
  · have : nx * 1 ≤ nx * (i / nx) := Int.mul_le_mul_of_nonneg_left (by omega) (by omega)
    omega
  · exact ⟨by omega, hq2 (Int.mul_le_mul_of_nonneg_left (by omega) (by omega))⟩

/-- The Poisson builder run against the checked matrix object succeeds on every
ownership range inside `[0, nx*ny)`, and the assembled object holds exactly
what the builder stages. -/
theorem create_poisson2d_matrix_checkedMat {nx ny Istart Iend : Int} (hnx : 1 ≤ nx)
    (hs : 0 ≤ Istart) (he : Iend ≤ nx * ny) :
    create_poisson2d_matrix (checkedMat Istart Iend) nx ny
      = .ok ⟨nx * ny, nx * ny, logEntries (poisson2d_staged nx ny Istart Iend), true⟩ := by
  have h := poisson2d_loop_eq (checkedMat Istart Iend) nx ny Iend _ Istart
    ⟨nx * ny, nx * ny, [], false⟩ rfl
  rw [stageRows_checkedMat Istart Iend (nx * ny) (nx * ny) (poisson2d_row nx ny)] at h
  · unfold create_poisson2d_matrix
    simp only [checkedMat] at h ⊢
    rw [h, poisson2d_staged_eq]
    simp
  · intro r hr
    rw [mem_ownedRows] at hr
    rw [indicesInRange_iff]
    exact ⟨⟨by omega, by omega⟩, poisson2d_row_inRange hnx (by omega) (by omega)⟩

theorem poisson2d_row_length (nx ny i : Int) :
    (poisson2d_row nx ny i).length =
      1 + (if 0 < Int.tmod i nx then 1 else 0) + (if Int.tmod i nx < nx - 1 then 1 else 0)
        + (if 0 < Int.tdiv i nx then 1 else 0) + (if Int.tdiv i nx < ny - 1 then 1 else 0) := by
  rw [poisson2d_row_append]
  simp only [List.length_append, List.length_singleton]
  split_ifs <;> rfl

/-! ## Reading assembled entries off a staged log -/

theorem stagedRow_cons (c : InsertCall) (log : List InsertCall) (i : Int) :
    stagedRow (c :: log) i = (if c.1 = i then c.2 else []) ++ stagedRow log i := by
  unfold stagedRow
  by_cases h : c.1 = i <;> simp [List.filter_cons, h]

theorem filter_logEntries (i j : Int) : ∀ log : List InsertCall,
    (logEntries log).filter (fun e => e.1 = i ∧ e.2.1 = j)
      = ((stagedRow log i).filter (fun p => p.1 = j)).map (fun p => (i, p.1, p.2)) := by
  intro log
  induction log with
  | nil => simp [logEntries, stagedRow]
  | cons c log ih =>
    have hcons : logEntries (c :: log)
        = c.2.map (fun p => (c.1, p.1, p.2)) ++ logEntries log := by
      simp [logEntries]
    rw [hcons, List.filter_append, ih, stagedRow_cons, List.filter_append, List.map_append]
    congr 1
    by_cases h : c.1 = i
    · subst h
      rw [if_pos rfl, List.filter_map]
      congr 1
      apply List.filter_congr
      intro p _
      simp
    · rw [if_neg h]
      simp only [List.filter_nil, List.map_nil, List.filter_eq_nil_iff, List.mem_map]
      rintro e ⟨p, -, rfl⟩
      simp [h]

theorem filter_col_of_mem {j : Int} {v : ℚ} : ∀ row : RowEntries,
    (row.map (fun p => p.1)).Nodup → (j, v) ∈ row →
      row.filter (fun p => p.1 = j) = [(j, v)] := by
  intro row
  induction row with
  | nil => intro _ h; simp at h
  | cons p rest ih =>
    intro hnd hmem
    rw [List.map_cons, List.nodup_cons] at hnd
    rcases List.mem_cons.mp hmem with h | h
    · subst h
      have hrest : rest.filter (fun p => p.1 = j) = [] := by
        rw [List.filter_eq_nil_iff]
        intro q hq hqj
        exact hnd.1 (List.mem_map.mpr ⟨q, hq, by simpa using hqj⟩)
      simp [List.filter_cons, hrest]
    · have hne : ¬ p.1 = j := by
        intro hp
        exact hnd.1 (List.mem_map.mpr ⟨(j, v), h, hp.symm⟩)
      simp only [List.filter_cons, hne, decide_False, Bool.false_eq_true, if_false]
      exact ih hnd.2 h

theorem filter_col_of_not_mem {j : Int} (row : RowEntries)
    (h : ∀ v : ℚ, (j, v) ∉ row) : row.filter (fun p => p.1 = j) = [] := by
  rw [List.filter_eq_nil_iff]
  rintro ⟨c, v⟩ hp hc
  have hcj : c = j := by simpa using hc
  subst hcj
  exact h v hp

/-- With no column staged twice in row `i`, the entry staged at `(i, j)` is the
assembled entry under either insertion mode. -/
theorem assembled_of_mem {log : List InsertCall} {i j : Int} {v : ℚ}
    (hnd : ((stagedRow log i).map (fun p => p.1)).Nodup) (hmem : (j, v) ∈ stagedRow log i) :
    assembledInsert (logEntries log) i j = v ∧ assembledAdd (logEntries log) i j = v := by
  unfold assembledInsert assembledAdd
  rw [filter_logEntries, filter_col_of_mem _ hnd hmem]
  simp

/-- Where nothing is staged at `(i, j)` the assembled entry is `0` under either mode. -/
theorem assembled_of_not_mem {log : List InsertCall} {i j : Int}
    (h : ∀ v : ℚ, (j, v) ∉ stagedRow log i) :
    assembledInsert (logEntries log) i j = 0 ∧ assembledAdd (logEntries log) i j = 0 := by
  unfold assembledInsert assembledAdd
  rw [filter_logEntries, filter_col_of_not_mem _ h]
  simp

/-! ## Facts on the heat stencil -/

theorem heat_equation_row_length (n : Int) (alpha : ℚ) (i : Int) :
    (heat_equation_row n alpha i).length = if i = 0 ∨ i = n - 1 then 2 else 3 := by
  unfold heat_equation_row
  split_ifs <;> simp_all

theorem heat_equation_row_cols (n : Int) (alpha : ℚ) (i : Int) :
    (heat_equation_row n alpha i).map (fun p => p.1) =
      if i = 0 then [0, 1] else if i = n - 1 then [n - 2, n - 1] else [i - 1, i, i + 1] := by
  unfold heat_equation_row
  split_ifs <;> rfl

theorem mem_heat_equation_row (n : Int) (alpha : ℚ) (i c : Int) (v : ℚ) :
    (c, v) ∈ heat_equation_row n alpha i ↔
      if i = 0 then (c = 0 ∧ v = 1 + 2 * alpha) ∨ (c = 1 ∧ v = -alpha)
      else if i = n - 1 then (c = n - 2 ∧ v = -alpha) ∨ (c = n - 1 ∧ v = 1 + 2 * alpha)
      else (c = i - 1 ∧ v = -alpha) ∨ (c = i ∧ v = 1 + 2 * alpha) ∨ (c = i + 1 ∧ v = -alpha) := by
  unfold heat_equation_row
  split_ifs <;> simp

/-- Entries of row `i` at columns inside `[0, n)`: the diagonal and the two neighbours. -/
theorem mem_heat_equation_row_inRange {n i j : Int} (alpha : ℚ) (v : ℚ)
    (hi0 : 0 ≤ i) (hi : i < n) (hj0 : 0 ≤ j) (hj : j < n) :
    (j, v) ∈ heat_equation_row n alpha i ↔
      (j = i ∧ v = 1 + 2 * alpha) ∨ ((j = i - 1 ∨ j = i + 1) ∧ v = -alpha) := by
  rw [mem_heat_equation_row]
  split_ifs with h0 h1
  · subst h0
    constructor
    · rintro (⟨rfl, rfl⟩ | ⟨rfl, rfl⟩)
      · exact Or.inl ⟨rfl, rfl⟩
      · exact Or.inr ⟨Or.inr rfl, rfl⟩
    · rintro (⟨rfl, rfl⟩ | ⟨(h | h), rfl⟩)
      · exact Or.inl ⟨rfl, rfl⟩
      · omega
      · exact Or.inr ⟨h, rfl⟩
  · subst h1
    constructor
    · rintro (⟨rfl, rfl⟩ | ⟨rfl, rfl⟩)
      · exact Or.inr ⟨Or.inl (by omega), rfl⟩
      · exact Or.inl ⟨rfl, rfl⟩
    · rintro (⟨rfl, rfl⟩ | ⟨(h | h), rfl⟩)
      · exact Or.inr ⟨rfl, rfl⟩
      · exact Or.inl ⟨by omega, rfl⟩
      · omega
  · constructor
    · rintro (⟨rfl, rfl⟩ | ⟨rfl, rfl⟩ | ⟨rfl, rfl⟩)
      · exact Or.inr ⟨Or.inl rfl, rfl⟩
      · exact Or.inl ⟨rfl, rfl⟩
      · exact Or.inr ⟨Or.inr rfl, rfl⟩
    · rintro (⟨rfl, rfl⟩ | ⟨(rfl | rfl), rfl⟩)
      · exact Or.inr (Or.inl ⟨rfl, rfl⟩)
      · exact Or.inl ⟨rfl, rfl⟩
      · exact Or.inr (Or.inr ⟨rfl, rfl⟩)

theorem heat_equation_row_nodup (n : Int) (alpha : ℚ) (i : Int) :
    ((heat_equation_row n alpha i).map (fun p => p.1)).Nodup := by
  rw [heat_equation_row_cols]
  split_ifs <;> simp
  omega

/-- For `n ≥ 2` every column the heat stencil names for a row of `[0, n)` lies in `[0, n)`. -/
theorem heat_equation_row_inRange {n i : Int} (alpha : ℚ) (hn : 2 ≤ n) (hi0 : 0 ≤ i)
    (hi : i < n) : ∀ p ∈ heat_equation_row n alpha i, 0 ≤ p.1 ∧ p.1 < n := by
  rintro ⟨c, v⟩ hp
  rw [mem_heat_equation_row] at hp
  simp only
  split_ifs at hp with h0 h1
  · rcases hp with ⟨rfl, -⟩ | ⟨rfl, -⟩ <;> omega
  · rcases hp with ⟨rfl, -⟩ | ⟨rfl, -⟩ <;> omega
  · rcases hp with ⟨rfl, -⟩ | ⟨rfl, -⟩ | ⟨rfl, -⟩ <;> omega

/-- For `n ≥ 2` the heat builder run against the checked matrix object succeeds
on every ownership range inside `[0, n)`. -/
theorem create_heat_equation_matrix_checkedMat {n Istart Iend : Int} (alpha : ℚ)
    (hn : 2 ≤ n) (hs : 0 ≤ Istart) (he : Iend ≤ n) :
    create_heat_equation_matrix (checkedMat Istart Iend) n alpha
      = .ok ⟨n, n, logEntries (heat_equation_staged n alpha Istart Iend), true⟩ := by
  have h := heat_equation_loop_eq (checkedMat Istart Iend) n alpha Iend _ Istart
    ⟨n, n, [], false⟩ rfl
  rw [stageRows_checkedMat Istart Iend n n (heat_equation_row n alpha)] at h
  · unfold create_heat_equation_matrix
    simp only [checkedMat] at h ⊢
    rw [h, heat_equation_staged_eq]
    simp
  · intro r hr
    rw [mem_ownedRows] at hr
    rw [indicesInRange_iff]
    exact ⟨⟨by omega, by omega⟩, heat_equation_row_inRange alpha hn (by omega) (by omega)⟩

theorem stagedRow_heat_equation {n i : Int} (alpha : ℚ) (hi0 : 0 ≤ i) (hi : i < n) :
    stagedRow (heat_equation_staged n alpha 0 n) i = heat_equation_row n alpha i := by
  rw [heat_equation_staged_eq, stagedRow_ownedRows, if_pos ⟨hi0, hi⟩]

/-- Entry `(i, j)` of the assembled heat matrix, for `i, j` in `[0, n)`. -/
theorem heat_equation_entry {n i j : Int} (alpha : ℚ) (hi0 : 0 ≤ i) (hi : i < n)
    (hj0 : 0 ≤ j) (hj : j < n) :
    assembledInsert (logEntries (heat_equation_staged n alpha 0 n)) i j =
      if j = i then 1 + 2 * alpha else if j = i - 1 ∨ j = i + 1 then -alpha else 0 := by
  have hnd : ((stagedRow (heat_equation_staged n alpha 0 n) i).map (fun p => p.1)).Nodup := by
    rw [stagedRow_heat_equation alpha hi0 hi]
    exact heat_equation_row_nodup n alpha i
  have hmem : ∀ v : ℚ, (j, v) ∈ stagedRow (heat_equation_staged n alpha 0 n) i ↔
      (j = i ∧ v = 1 + 2 * alpha) ∨ ((j = i - 1 ∨ j = i + 1) ∧ v = -alpha) := by
    intro v
    rw [stagedRow_heat_equation alpha hi0 hi]
    exact mem_heat_equation_row_inRange alpha v hi0 hi hj0 hj
  by_cases h1 : j = i
  · rw [if_pos h1]
    exact (assembled_of_mem hnd ((hmem _).mpr (Or.inl ⟨h1, rfl⟩))).1
  · rw [if_neg h1]
    by_cases h2 : j = i - 1 ∨ j = i + 1
    · rw [if_pos h2]
      exact (assembled_of_mem hnd ((hmem _).mpr (Or.inr ⟨h2, rfl⟩))).1
    · rw [if_neg h2]
      refine (assembled_of_not_mem ?_).1
      intro v hv
      rcases (hmem v).mp hv with ⟨h, -⟩ | ⟨h, -⟩
      · exact h1 h
      · exact h2 h

/-- For `n ≥ 2` the builder succeeds and the dense row is read off what it staged. -/
theorem heat_equation_dense_row_eq {n : Int} (alpha : ℚ) (i : Int) (hn : 2 ≤ n) :
    heat_equation_dense_row n alpha i =
      some ((List.range n.toNat).map (fun (j : Nat) =>
        assembledInsert (logEntries (heat_equation_staged n alpha 0 n)) i (j : Int))) := by
  unfold heat_equation_dense_row
  rw [create_heat_equation_matrix_checkedMat alpha hn (le_refl 0) (le_refl n)]

/-- With one row and one process the checked run of the heat builder ends in
the out-of-range error, whatever `alpha` is. -/
theorem create_heat_equation_matrix_checkedMat_one (alpha : ℚ) :
    create_heat_equation_matrix (checkedMat 0 1) 1 alpha = .error PETSC_ERR_ARG_OUTOFRANGE := by
  have hrows : ownedRows 0 1 = [0] := by
    rw [ownedRows_of_lt (by decide), ownedRows_of_le (by decide)]
  have h := heat_equation_loop_eq (checkedMat 0 1) 1 alpha 1 _ 0 ⟨1, 1, [], false⟩ rfl
  rw [hrows] at h
  unfold create_heat_equation_matrix
  simp only [checkedMat] at h ⊢
  rw [h]
  simp [stageRows, heat_equation_row, indicesInRange]

theorem assembledInsert_eq_assembledAdd {log : List InsertCall} {i : Int} (j : Int)
    (hnd : ((stagedRow log i).map (fun p => p.1)).Nodup) :
    assembledInsert (logEntries log) i j = assembledAdd (logEntries log) i j := by
  by_cases h : ∃ v : ℚ, (j, v) ∈ stagedRow log i
  · obtain ⟨v, hv⟩ := h
    rw [(assembled_of_mem hnd hv).1, (assembled_of_mem hnd hv).2]
  · have h' : ∀ v : ℚ, (j, v) ∉ stagedRow log i := fun v hv => h ⟨v, hv⟩
    rw [(assembled_of_not_mem h').1, (assembled_of_not_mem h').2]

theorem stagedRow_poisson2d_nodup {nx ny : Int} (hnx : 1 ≤ nx) (i : Int) :
    ((stagedRow (poisson2d_staged nx ny 0 (nx * ny)) i).map (fun p => p.1)).Nodup := by
  rw [poisson2d_staged_eq, stagedRow_ownedRows]
  split_ifs with h
  · exact poisson2d_row_nodup hnx h.1
  · exact List.nodup_nil

theorem stagedRow_heat_equation_nodup (n : Int) (alpha : ℚ) (i : Int) :
    ((stagedRow (heat_equation_staged n alpha 0 n) i).map (fun p => p.1)).Nodup := by
  rw [heat_equation_staged_eq, stagedRow_ownedRows]
  split_ifs with h
  · exact heat_equation_row_nodup n alpha i
  · exact List.nodup_nil

/-- Symmetric membership gives symmetric assembled entries. -/
theorem assembledInsert_symm {log : List InsertCall} {i j : Int}
    (hi : ((stagedRow log i).map (fun p => p.1)).Nodup)
    (hj : ((stagedRow log j).map (fun p => p.1)).Nodup)
    (h : ∀ v : ℚ, (j, v) ∈ stagedRow log i ↔ (i, v) ∈ stagedRow log j) :
    assembledInsert (logEntries log) i j = assembledInsert (logEntries log) j i := by
  by_cases hex : ∃ v : ℚ, (j, v) ∈ stagedRow log i
  · obtain ⟨v, hv⟩ := hex
    rw [(assembled_of_mem hi hv).1, (assembled_of_mem hj ((h v).mp hv)).1]
  · have h1 : ∀ v : ℚ, (j, v) ∉ stagedRow log i := fun v hv => hex ⟨v, hv⟩
    have h2 : ∀ v : ℚ, (i, v) ∉ stagedRow log j := fun v hv => hex ⟨v, (h v).mpr hv⟩
    rw [(assembled_of_not_mem h1).1, (assembled_of_not_mem h2).1]

/-- One direction of the symmetry of the Poisson stencil. -/
theorem poisson2d_row_symm_dir {nx ny i j : Int} (hnx : 1 ≤ nx) (hi0 : 0 ≤ i)
    (hi : i < nx * ny) (hj0 : 0 ≤ j) (hj : j < nx * ny) (v : ℚ)
    (h : (j, v) ∈ poisson2d_row nx ny i) : (i, v) ∈ poisson2d_row nx ny j := by
  rw [mem_poisson2d_row_grid hnx hi0 hi] at h
  rw [mem_poisson2d_row_grid hnx hj0 hj]
  obtain ⟨-, -, h1, h2, h3, h4, h5⟩ := grid_index hnx hi0 hi
  rcases h with ⟨rfl, rfl⟩ | ⟨rfl, (⟨rfl, h⟩ | ⟨rfl, h⟩ | ⟨rfl, h⟩ | ⟨rfl, h⟩)⟩
  · exact Or.inl ⟨rfl, rfl⟩
  · have e : i - 1 = nx * (i / nx) + (i % nx - 1) := by omega
    obtain ⟨-, hr⟩ := @grid_index_unique nx (i / nx) (i % nx - 1)
      (by omega) (by omega)
    rw [← e] at hr
    exact Or.inr ⟨rfl, Or.inr (Or.inl ⟨by omega, by omega⟩)⟩
  · have e : i + 1 = nx * (i / nx) + (i % nx + 1) := by omega
    obtain ⟨-, hr⟩ := @grid_index_unique nx (i / nx) (i % nx + 1)
      (by omega) (by omega)
    rw [← e] at hr
    exact Or.inr ⟨rfl, Or.inl ⟨by omega, by omega⟩⟩
  · have e : i - nx = nx * (i / nx - 1) + i % nx := by rw [Int.mul_sub]; omega
    obtain ⟨hq, -⟩ := @grid_index_unique nx (i / nx - 1) (i % nx) h1 h2
    rw [← e] at hq
    exact Or.inr ⟨rfl, Or.inr (Or.inr (Or.inr ⟨by omega, by omega⟩))⟩
  · have e : i + nx = nx * (i / nx + 1) + i % nx := by rw [Int.mul_add]; omega
    obtain ⟨hq, -⟩ := @grid_index_unique nx (i / nx + 1) (i % nx) h1 h2
    rw [← e] at hq
    exact Or.inr ⟨rfl, Or.inr (Or.inr (Or.inl ⟨by omega, by omega⟩))⟩

theorem heat_equation_row_symm {n i j : Int} (alpha : ℚ) (hi0 : 0 ≤ i) (hi : i < n)
    (hj0 : 0 ≤ j) (hj : j < n) (v : ℚ) :
    (j, v) ∈ heat_equation_row n alpha i ↔ (i, v) ∈ heat_equation_row n alpha j := by
  rw [mem_heat_equation_row_inRange alpha v hi0 hi hj0 hj,
    mem_heat_equation_row_inRange alpha v hj0 hj hi0 hi]
  constructor
  · rintro (⟨h, hv⟩ | ⟨h, hv⟩)
    · exact Or.inl ⟨h.symm, hv⟩
    · exact Or.inr ⟨by omega, hv⟩
  · rintro (⟨h, hv⟩ | ⟨h, hv⟩)
    · exact Or.inl ⟨h.symm, hv⟩
    · exact Or.inr ⟨by omega, hv⟩

/-- Off-diagonal absolute row sum of a matrix whose row `i` is tridiagonal with
off-diagonal value `-alpha`, `alpha ≥ 0`. -/
theorem offDiagonalAbsSum_tridiagonal {n i : Int} {alpha : ℚ} (a : Int → Int → ℚ)
    (hα : 0 ≤ alpha) (hi0 : 0 ≤ i) (hi : i < n)
    (ha : ∀ j : Int, 0 ≤ j → j < n →
      a i j = if j = i then 1 + 2 * alpha else if j = i - 1 ∨ j = i + 1 then -alpha else 0) :
    offDiagonalAbsSum n a i
      = (if 1 ≤ i then alpha else 0) + (if i + 1 < n then alpha else 0) := by
  unfold offDiagonalAbsSum
  have hterm : ∀ j ∈ Finset.range n.toNat,
      (if (j : Int) = i then 0 else |a i (j : Int)|)
        = (if j = (i - 1).toNat then (if 1 ≤ i then alpha else 0) else 0)
          + (if j = (i + 1).toNat then alpha else 0) := by
    intro j hj
    rw [Finset.mem_range] at hj
    rw [ha j (Int.ofNat_nonneg j) (by omega)]
    by_cases h1 : (j : Int) = i
    · rw [if_pos h1]
      split_ifs <;> first | omega | simp
    · rw [if_neg h1, if_neg h1]
      by_cases h2 : (j : Int) = i - 1
      · rw [if_pos (Or.inl h2), if_pos (by omega), if_pos (by omega), if_neg (by omega),
          abs_neg, abs_of_nonneg hα]
        simp
      · by_cases h3 : (j : Int) = i + 1
        · rw [if_pos (Or.inr h3), if_neg (by omega), if_pos (by omega), abs_neg,
            abs_of_nonneg hα]
          simp
        · rw [if_neg (by omega), if_neg (by omega), if_neg (by omega)]
          simp
  rw [Finset.sum_congr rfl hterm, Finset.sum_add_distrib, Finset.sum_ite_eq',
    Finset.sum_ite_eq']
  have m1 : (i - 1).toNat ∈ Finset.range n.toNat := by
    rw [Finset.mem_range]; omega
  rw [if_pos m1]
  congr 1
  by_cases h : i + 1 < n
  · rw [if_pos h, if_pos (by rw [Finset.mem_range]; omega)]
  · rw [if_neg h, if_neg (by rw [Finset.mem_range]; omega)]

/-! ## Facts on ownership ranges -/

theorem ownedRows_append : ∀ (k : Nat) (a b c : Int), (b - a).toNat = k → a ≤ b → b ≤ c →
    ownedRows a b ++ ownedRows b c = ownedRows a c := by
  intro k
  induction k with
  | zero =>
    intro a b c hk hab hbc
    have hba : b = a := by omega
    subst hba
    rw [ownedRows_of_le (le_refl b), List.nil_append]
  | succ k ih =>
    intro a b c hk hab hbc
    have hlt : a < b := by omega
    rw [ownedRows_of_lt hlt, ownedRows_of_lt (show a < c by omega), List.cons_append,
      ih (a + 1) b c (by omega) (by omega) hbc]

theorem tilesRange_le : ∀ (rs : List (Int × Int)) (lo hi : Int), tilesRange rs lo hi → lo ≤ hi := by
  intro rs
  induction rs with
  | nil => intro lo hi h; exact le_of_eq h
  | cons r rest ih =>
    intro lo hi h
    obtain ⟨h1, h2, h3⟩ := h
    have := ih r.2 hi h3
    omega

/-- The logs of processes whose ranges tile `[lo, hi)`, concatenated in rank
order, are the log of one process owning `[lo, hi)`. -/
theorem flatten_tilesRange (f : Int → InsertCall) :
    ∀ (rs : List (Int × Int)) (lo hi : Int), tilesRange rs lo hi →
      (rs.map (fun r => (ownedRows r.1 r.2).map f)).flatten = (ownedRows lo hi).map f := by
  intro rs
  induction rs with
  | nil =>
    intro lo hi h
    have hlh : lo = hi := h
    subst hlh
    simp [ownedRows_of_le (le_refl lo)]
  | cons r rest ih =>
    intro lo hi h
    obtain ⟨h1, h2, h3⟩ := h
    have hle := tilesRange_le rest r.2 hi h3
    rw [List.map_cons, List.flatten_cons, ih r.2 hi h3, ← List.map_append, h1.symm,
      ownedRows_append _ r.1 r.2 hi rfl h2 hle]

theorem mem_staged_row {f : Int → RowEntries} {a b : Int} {c : InsertCall}
    (h : c ∈ (ownedRows a b).map (fun r => (r, f r))) : a ≤ c.1 ∧ c.1 < b := by
  obtain ⟨r, hr, rfl⟩ := List.mem_map.mp h
  exact mem_ownedRows.mp hr

/-! ## Facts on the matrix-file driver -/

theorem callsCHKERRQ_of_succeed (w : World) : ∀ (cs tr : List Call),
    (∀ c ∈ cs, w.ret c = 0) → callsCHKERRQ w cs tr = (0, tr ++ cs) := by
  intro cs
  induction cs with
  | nil => intro tr _; simp [callsCHKERRQ]
  | cons c cs ih =>
    intro tr h
    have hc : w.ret c = 0 := h c (List.mem_cons_self _ _)
    rw [callsCHKERRQ, if_neg (by simp [hc]), ih _ (fun x hx => h x (List.mem_cons_of_mem _ hx))]
    simp

theorem callsCHKERRQ_trace (w : World) : ∀ (cs tr : List Call),
    ∀ c ∈ (callsCHKERRQ w cs tr).2, c ∈ tr ∨ c ∈ cs := by
  intro cs
  induction cs with
  | nil => intro tr c h; exact Or.inl h
  | cons x cs ih =>
    intro tr c h
    rw [callsCHKERRQ] at h
    split_ifs at h
    · rcases List.mem_append.mp h with h | h
      · exact Or.inl h
      · exact Or.inr (List.mem_cons.mpr (Or.inl (List.mem_singleton.mp h)))
    · rcases ih _ c h with h | h
      · rcases List.mem_append.mp h with h | h
        · exact Or.inl h
        · exact Or.inr (List.mem_cons.mpr (Or.inl (List.mem_singleton.mp h)))
      · exact Or.inr (List.mem_cons_of_mem _ h)

theorem callsCHKERRQ_extends (w : World) : ∀ (cs tr : List Call),
    ∃ rest : List Call, (callsCHKERRQ w cs tr).2 = tr ++ rest := by
  intro cs
  induction cs with
  | nil => intro tr; exact ⟨[], by simp [callsCHKERRQ]⟩
  | cons c cs ih =>
    intro tr
    rw [callsCHKERRQ]
    split_ifs
    · exact ⟨[c], rfl⟩
    · obtain ⟨rest, hrest⟩ := ih (tr ++ [c])
      exact ⟨c :: rest, by rw [hrest]; simp⟩

theorem callsCHKERRQ_cons_trace (w : World) (c : Call) (cs tr : List Call) :
    ∃ rest : List Call, (callsCHKERRQ w (c :: cs) tr).2 = tr ++ c :: rest := by
  rw [callsCHKERRQ]
  split_ifs
  · exact ⟨[], rfl⟩
  · obtain ⟨rest, hrest⟩ := callsCHKERRQ_extends w cs (tr ++ [c])
    exact ⟨rest, by rw [hrest]; simp⟩

/-- Up to the square test `main` makes no call of the solver pipeline. -/
theorem read_matrix_file_main_notSquare_trace (w : World) (h : w.m ≠ w.n) :
    ∀ c ∈ (read_matrix_file_main w).2, isSolveCall c = false := by
  intro c hc
  unfold read_matrix_file_main read_matrix_from_mm at hc
  simp only at hc
  have hA : ∀ c ∈ (callsCHKERRQ w [Call.solver_initialize, Call.PetscOptionsGetString] []).2,
      isSolveCall c = false := by
    intro c hc
    rcases callsCHKERRQ_trace w _ _ c hc with h | h
    · simp at h
    · simp only [List.mem_cons, List.mem_singleton, List.not_mem_nil, or_false] at h
      rcases h with rfl | rfl <;> rfl
  have hB : ∀ tr : List Call, (∀ c ∈ tr, isSolveCall c = false) →
      ∀ c ∈ (callsCHKERRQ w [Call.PetscViewerBinaryOpen, Call.MatCreate,
        Call.MatSetFromOptions, Call.MatLoad, Call.PetscViewerDestroy] tr).2,
        isSolveCall c = false := by
    intro tr htr c hc
    rcases callsCHKERRQ_trace w _ _ c hc with h | h
    · exact htr c h
    · simp only [List.mem_cons, List.mem_singleton, List.not_mem_nil, or_false] at h
      rcases h with rfl | rfl | rfl | rfl | rfl <;> rfl
  have hC : ∀ tr : List Call, (∀ c ∈ tr, isSolveCall c = false) →
      ∀ c ∈ (callsCHKERRQ w [Call.MatGetSize] tr).2, isSolveCall c = false := by
    intro tr htr c hc
    rcases callsCHKERRQ_trace w _ _ c hc with h | h
    · exact htr c h
    · simp only [List.mem_singleton] at h
      subst h
      rfl
  have hP : ∀ (tr : List Call) (msg : String), (∀ c ∈ tr, isSolveCall c = false) →
      ∀ c ∈ tr ++ [Call.PetscPrintf msg], isSolveCall c = false := by
    intro tr msg htr c hc
    rcases List.mem_append.mp hc with h | h
    · exact htr c h
    · rw [List.mem_singleton.mp h]
      rfl
  split_ifs at hc
  · exact hA c hc
  · exact hB _ (hP _ _ hA) c hc
  · exact hC _ (hB _ (hP _ _ hA)) c hc
  · exact hP _ _ (hC _ (hB _ (hP _ _ hA))) c hc

/-! ## Claims on the Poisson builder -/

/-- C1: for a grid with `nx, ny ≥ 1` and a row `i` of `[0, nx*ny)` owned by the
running process, with `ix = i mod nx` and `iy = i div nx`, the entries
`create_poisson2d_matrix` stages for row `i` are exactly `4` at column `i` and
`-1` at column `i-1` iff `ix > 0`, at `i+1` iff `ix < nx-1`, at `i-nx` iff
`iy > 0`, at `i+nx` iff `iy < ny-1`; no column is staged twice; and the `-1`
entries sit exactly at the row-major indices of the in-grid 4-neighbours of
the cell `(ix, iy)`. -/
theorem poisson2d_row_entries (nx ny Istart Iend i : Int) (hnx : 1 ≤ nx) (_hny : 1 ≤ ny)
    (hi0 : 0 ≤ i) (hi : i < nx * ny) (hs : Istart ≤ i) (he : i < Iend) :
    (∀ (c : Int) (v : ℚ), (c, v) ∈ stagedRow (poisson2d_staged nx ny Istart Iend) i ↔
      (c = i ∧ v = 4) ∨
      (v = -1 ∧ ((c = i - 1 ∧ 0 < i % nx) ∨ (c = i + 1 ∧ i % nx < nx - 1) ∨
        (c = i - nx ∧ 0 < i / nx) ∨ (c = i + nx ∧ i / nx < ny - 1)))) ∧
    ((stagedRow (poisson2d_staged nx ny Istart Iend) i).map (fun p => p.1)).Nodup ∧
    (∀ c : Int, (c, (-1 : ℚ)) ∈ stagedRow (poisson2d_staged nx ny Istart Iend) i ↔
      ∃ jx jy : Int, 0 ≤ jx ∧ jx < nx ∧ 0 ≤ jy ∧ jy < ny ∧ c = jy * nx + jx ∧
        ((jy = i / nx ∧ (jx = i % nx - 1 ∨ jx = i % nx + 1)) ∨
         (jx = i % nx ∧ (jy = i / nx - 1 ∨ jy = i / nx + 1)))) := by
  rw [poisson2d_staged_eq, stagedRow_ownedRows, if_pos ⟨hs, he⟩]
  exact ⟨fun c v => mem_poisson2d_row_grid hnx hi0 hi c v, poisson2d_row_nodup hnx hi0,
    fun c => poisson2d_row_neighbours hnx hi0 hi c⟩

/-- C1 at `nx = ny = 3`, row `4`: the five staged entries, in staging order. -/
theorem poisson2d_row_entries_witness :
    stagedRow (poisson2d_staged 3 3 0 9) 4 = [(4, 4), (3, -1), (5, -1), (1, -1), (7, -1)] ∧
    (∀ (c : Int) (v : ℚ), (c, v) ∈ stagedRow (poisson2d_staged 3 3 0 9) 4 ↔
      (c = 4 ∧ v = 4) ∨
      (v = -1 ∧ ((c = 4 - 1 ∧ 0 < (4 : Int) % 3) ∨ (c = 4 + 1 ∧ (4 : Int) % 3 < 3 - 1) ∨
        (c = 4 - 3 ∧ 0 < (4 : Int) / 3) ∨ (c = 4 + 3 ∧ (4 : Int) / 3 < 3 - 1)))) := by
  refine ⟨?_, (poisson2d_row_entries 3 3 0 9 4 (by decide) (by decide) (by decide) (by decide)
    (by decide) (by decide)).1⟩
  rw [poisson2d_staged_eq, stagedRow_ownedRows]
  simp [poisson2d_row, Int.tmod, Int.tdiv]

/-- C2 as stated fails on grids one cell wide: the only cell of the `1 × 1`
grid is a corner whose row holds one entry, and the middle cell of a `1 × 3`
or `3 × 1` grid is a non-corner edge cell whose row holds three. -/
theorem poisson2d_counts_counterexample :
    (isCorner 1 1 0 ∧ stagedRow (poisson2d_staged 1 1 0 (1 * 1)) 0 = [(0, 4)]) ∧
    (isEdge 1 3 1 ∧
      stagedRow (poisson2d_staged 1 3 0 (1 * 3)) 1 = [(1, 4), (0, -1), (2, -1)]) ∧
    (isEdge 3 1 1 ∧
      stagedRow (poisson2d_staged 3 1 0 (3 * 1)) 1 = [(1, 4), (0, -1), (2, -1)]) := by
  refine ⟨⟨by decide, ?_⟩, ⟨by decide, ?_⟩, ⟨by decide, ?_⟩⟩ <;>
    rw [poisson2d_staged_eq, stagedRow_ownedRows] <;>
    simp [poisson2d_row, Int.tmod, Int.tdiv]

/-- C2, amended: for `nx, ny ≥ 1` the matrix built by `create_poisson2d_matrix`
is `nx*ny × nx*ny`, a single process stages one insert for each of the rows
`0 … nx*ny-1`, every diagonal entry is `4` and every off-diagonal entry is
`-1`; the number of entries of a row is `1` plus the number of in-grid
neighbours of its cell, which for `nx, ny ≥ 2` is `3` at the four corners, `4`
on non-corner edges and `5` elsewhere. -/
theorem poisson2d_matrix_shape (nx ny : Int) (hnx : 1 ≤ nx) (hny : 1 ≤ ny) :
    create_poisson2d_matrix (checkedMat 0 (nx * ny)) nx ny
      = .ok ⟨nx * ny, nx * ny, logEntries (poisson2d_staged nx ny 0 (nx * ny)), true⟩ ∧
    (poisson2d_staged nx ny 0 (nx * ny)).map (fun c => c.1) = ownedRows 0 (nx * ny) ∧
    (ownedRows 0 (nx * ny)).length = (nx * ny).toNat ∧
    ∀ i : Int, 0 ≤ i → i < nx * ny →
      (∀ (c : Int) (v : ℚ), (c, v) ∈ stagedRow (poisson2d_staged nx ny 0 (nx * ny)) i →
        (c = i → v = 4) ∧ (c ≠ i → v = -1)) ∧
      (stagedRow (poisson2d_staged nx ny 0 (nx * ny)) i).length =
        1 + (if 0 < i % nx then 1 else 0) + (if i % nx < nx - 1 then 1 else 0)
          + (if 0 < i / nx then 1 else 0) + (if i / nx < ny - 1 then 1 else 0) ∧
      (2 ≤ nx → 2 ≤ ny →
        (isCorner nx ny i → (stagedRow (poisson2d_staged nx ny 0 (nx * ny)) i).length = 3) ∧
        (isEdge nx ny i → (stagedRow (poisson2d_staged nx ny 0 (nx * ny)) i).length = 4) ∧
        (¬ isCorner nx ny i → ¬ isEdge nx ny i →
          (stagedRow (poisson2d_staged nx ny 0 (nx * ny)) i).length = 5)) := by
  have _ := hny
  refine ⟨create_poisson2d_matrix_checkedMat hnx (le_refl 0) (le_refl _), ?_, ?_, ?_⟩
  · rw [poisson2d_staged_eq, List.map_map]
    exact List.map_id _
  · simp [ownedRows]
  · intro i hi0 hi
    obtain ⟨hm, hd, h1, h2, h3, h4, -⟩ := grid_index hnx hi0 hi
    rw [poisson2d_staged_eq, stagedRow_ownedRows, if_pos ⟨hi0, hi⟩]
    have hlen := poisson2d_row_length nx ny i
    rw [hm, hd] at hlen
    refine ⟨?_, hlen, ?_⟩
    · intro c v hcv
      rw [mem_poisson2d_row_grid hnx hi0 hi] at hcv
      rcases hcv with ⟨rfl, rfl⟩ | ⟨rfl, hc⟩
      · exact ⟨fun _ => rfl, fun h => absurd rfl h⟩
      · refine ⟨fun h => ?_, fun _ => rfl⟩
        exfalso
        omega
    · intro h2x h2y
      rw [hlen]
      unfold isEdge isCorner onSideBoundary onEndBoundary
      generalize i / nx = q at *
      generalize i % nx = r at *
      refine ⟨?_, ?_, ?_⟩
      · rintro ⟨hr, hq⟩
        split_ifs <;> omega
      · rintro (⟨hr, hq⟩ | ⟨hr, hq⟩) <;> split_ifs <;> omega
      · intro hc he
        split_ifs <;> omega

/-- C2, amended, at the `3 × 3` grid: the matrix is `9 × 9` and the row of the
corner cell `0` holds three entries. -/
theorem poisson2d_matrix_shape_witness :
    ((1 : Int) ≤ 3 ∧ (2 : Int) ≤ 3 ∧ isCorner 3 3 0) ∧
    create_poisson2d_matrix (checkedMat 0 (3 * 3)) 3 3
      = .ok ⟨3 * 3, 3 * 3, logEntries (poisson2d_staged 3 3 0 (3 * 3)), true⟩ ∧
    (stagedRow (poisson2d_staged 3 3 0 (3 * 3)) 0).length = 3 :=
  ⟨⟨by decide, by decide, by decide⟩,
    (poisson2d_matrix_shape 3 3 (by decide) (by decide)).1,
    (((poisson2d_matrix_shape 3 3 (by decide) (by decide)).2.2.2 0 (by decide)
      (by decide)).2.2 (by decide) (by decide)).1 (by decide)⟩

/-! ## Claims on the heat builder -/

/-- C3: for `n ≥ 1`, every `alpha` and every owned row `i` of `[0, n)`,
`create_heat_equation_matrix` issues one insert for the row, staging exactly
2 entries when `i = 0` or `i = n-1` and exactly 3 when `0 < i < n-1`; the
diagonal entry is staged with value `1 + 2*alpha` and every off-diagonal entry
has value `-alpha`. -/
theorem heat_equation_row_counts (n : Int) (alpha : ℚ) (Istart Iend i : Int) (hn : 1 ≤ n)
    (hi0 : 0 ≤ i) (hi : i < n) (hs : Istart ≤ i) (he : i < Iend) :
    insertCalls (heat_equation_staged n alpha Istart Iend) i = 1 ∧
    (i = 0 ∨ i = n - 1 → (stagedRow (heat_equation_staged n alpha Istart Iend) i).length = 2) ∧
    (0 < i → i < n - 1 → (stagedRow (heat_equation_staged n alpha Istart Iend) i).length = 3) ∧
    (i, 1 + 2 * alpha) ∈ stagedRow (heat_equation_staged n alpha Istart Iend) i ∧
    (∀ (c : Int) (v : ℚ), (c, v) ∈ stagedRow (heat_equation_staged n alpha Istart Iend) i →
      (c = i → v = 1 + 2 * alpha) ∧ (c ≠ i → v = -alpha)) := by
  have _ := hn
  have hrow : stagedRow (heat_equation_staged n alpha Istart Iend) i
      = heat_equation_row n alpha i := by
    rw [heat_equation_staged_eq, stagedRow_ownedRows, if_pos ⟨hs, he⟩]
  have hcall : insertCalls (heat_equation_staged n alpha Istart Iend) i = 1 := by
    rw [heat_equation_staged_eq, insertCalls_ownedRows, if_pos ⟨hs, he⟩]
  rw [hrow, hcall, heat_equation_row_length]
  refine ⟨rfl, fun h => if_pos h, fun h1 h2 => if_neg (by omega), ?_, ?_⟩
  · rw [mem_heat_equation_row]
    split_ifs with h0 h1
    · exact Or.inl ⟨h0, rfl⟩
    · exact Or.inr ⟨h1, rfl⟩
    · exact Or.inr (Or.inl ⟨rfl, rfl⟩)
  · intro c v hcv
    rw [mem_heat_equation_row] at hcv
    split_ifs at hcv with h0 h1
    · rcases hcv with ⟨rfl, rfl⟩ | ⟨rfl, rfl⟩
      · exact ⟨fun _ => rfl, fun h => absurd h0.symm h⟩
      · exact ⟨fun h => by omega, fun _ => rfl⟩
    · rcases hcv with ⟨rfl, rfl⟩ | ⟨rfl, rfl⟩
      · exact ⟨fun h => by omega, fun _ => rfl⟩
      · exact ⟨fun _ => rfl, fun h => absurd h1.symm h⟩
    · rcases hcv with ⟨rfl, rfl⟩ | ⟨rfl, rfl⟩ | ⟨rfl, rfl⟩
      · exact ⟨fun h => by omega, fun _ => rfl⟩
      · exact ⟨fun _ => rfl, fun h => absurd rfl h⟩
      · exact ⟨fun h => by omega, fun _ => rfl⟩

/-- C3 at `n = 5`, `alpha = 1/10`, interior row `2`. -/
theorem heat_equation_row_counts_witness :
    stagedRow (heat_equation_staged 5 (1 / 10) 0 5) 2
      = [(1, -(1 / 10)), (2, 1 + 2 * (1 / 10)), (3, -(1 / 10))] ∧
    ((0 : Int) < 2 → (2 : Int) < 5 - 1 →
      (stagedRow (heat_equation_staged 5 (1 / 10) 0 5) 2).length = 3) := by
  refine ⟨?_, (heat_equation_row_counts 5 (1 / 10) 0 5 2 (by decide) (by decide) (by decide)
    (by decide) (by decide)).2.2.1⟩
  rw [heat_equation_staged_eq, stagedRow_ownedRows]
  simp [heat_equation_row]

/-- C4 as stated ("for every `n`") fails at `n = 1` (here `alpha = 1/10`): for
row `0` the builder stages columns `0` and `1`, column `1` is outside `[0, 1)`,
the insert is rejected, and no matrix, hence no dense row, is built. -/
theorem heat_equation_dense_row_counterexample :
    stagedRow (heat_equation_staged 1 (1 / 10) 0 1) 0
      = [(0, 1 + 2 * (1 / 10)), (1, -(1 / 10))] ∧
    create_heat_equation_matrix (checkedMat 0 1) 1 (1 / 10)
      = .error PETSC_ERR_ARG_OUTOFRANGE ∧
    heat_equation_dense_row 1 (1 / 10) 0 = none := by
  refine ⟨?_, create_heat_equation_matrix_checkedMat_one (1 / 10), ?_⟩
  · rw [heat_equation_staged_eq, stagedRow_ownedRows]
    simp [heat_equation_row]
  · unfold heat_equation_dense_row
    rw [create_heat_equation_matrix_checkedMat_one]

/-- C4, amended to `n ≥ 2`: for every `n ≥ 2` and `alpha` the builder builds
the `n × n` matrix, and its dense row `i` has `n` columns with, at each column
`j` of `[0, n)`: on row `0`, `1+2*alpha` at column `0`, `-alpha` at column `1`,
`0` elsewhere; on row `n-1`, `-alpha` at column `n-2`, `1+2*alpha` at column
`n-1`, `0` elsewhere; on an interior row `i`, `-alpha` at `i-1`, `1+2*alpha`
at `i`, `-alpha` at `i+1`, `0` elsewhere. -/
theorem heat_equation_dense_row_spec (n : Int) (alpha : ℚ) (i : Int) (j : Nat)
    (hn : 2 ≤ n) (hi0 : 0 ≤ i) (hi : i < n) (hj : (j : Int) < n) :
    create_heat_equation_matrix (checkedMat 0 n) n alpha
      = .ok ⟨n, n, logEntries (heat_equation_staged n alpha 0 n), true⟩ ∧
    ∃ row : List ℚ, heat_equation_dense_row n alpha i = some row ∧
      row.length = n.toNat ∧
      (i = 0 → row[j]? =
        some (if (j : Int) = 0 then 1 + 2 * alpha else if (j : Int) = 1 then -alpha else 0)) ∧
      (i = n - 1 → row[j]? =
        some (if (j : Int) = n - 2 then -alpha
          else if (j : Int) = n - 1 then 1 + 2 * alpha else 0)) ∧
      (0 < i → i < n - 1 → row[j]? =
        some (if (j : Int) = i - 1 then -alpha else if (j : Int) = i then 1 + 2 * alpha
          else if (j : Int) = i + 1 then -alpha else 0)) := by
  have hj0 : (0 : Int) ≤ (j : Int) := Int.ofNat_nonneg j
  refine ⟨create_heat_equation_matrix_checkedMat alpha hn (le_refl 0) (le_refl n),
    _, heat_equation_dense_row_eq alpha i hn, by simp, ?_⟩
  have hget : ((List.range n.toNat).map (fun (j : Nat) =>
      assembledInsert (logEntries (heat_equation_staged n alpha 0 n)) i (j : Int)))[j]?
        = some (if (j : Int) = i then 1 + 2 * alpha
            else if (j : Int) = i - 1 ∨ (j : Int) = i + 1 then -alpha else 0) := by
    rw [List.getElem?_map, List.getElem?_range (by omega),
      ← heat_equation_entry alpha hi0 hi hj0 hj]
    rfl
  rw [hget]
  refine ⟨?_, ?_, ?_⟩
  · intro h
    subst h
    congr 1
    split_ifs <;> first | rfl | omega
  · intro h
    subst h
    congr 1
    split_ifs <;> first | rfl | omega
  · intro h1 h2
    congr 1
    split_ifs <;> first | rfl | omega

/-- C4, amended, at `n = 5`, `alpha = 1/10`: the matrix is built and its row
`2` is `[0, -1/10, 12/10, -1/10, 0]`. -/
theorem heat_equation_dense_row_spec_witness :
    (2 : Int) ≤ 5 ∧
    heat_equation_dense_row 5 (1 / 10) 2 = some [0, -1 / 10, 12 / 10, -1 / 10, 0] ∧
    create_heat_equation_matrix (checkedMat 0 5) 5 (1 / 10)
      = .ok ⟨5, 5, logEntries (heat_equation_staged 5 (1 / 10) 0 5), true⟩ := by
  refine ⟨by decide, ?_, (heat_equation_dense_row_spec 5 (1 / 10) 2 2 (by decide) (by decide)
    (by decide) (by decide)).1⟩
  have e : ∀ j : Nat, (j : Int) < 5 →
      assembledInsert (logEntries (heat_equation_staged 5 (1 / 10) 0 5)) 2 (j : Int) =
        if (j : Int) = 2 then 1 + 2 * (1 / 10)
        else if (j : Int) = 2 - 1 ∨ (j : Int) = 2 + 1 then -(1 / 10) else 0 :=
    fun j hj => heat_equation_entry (1 / 10) (by decide) (by decide) (Int.ofNat_nonneg j) hj
  have e0 := e 0 (by decide)
  have e1 := e 1 (by decide)
  have e2 := e 2 (by decide)
  have e3 := e 3 (by decide)
  have e4 := e 4 (by decide)
  norm_num at e0 e1 e2 e3 e4
  have h5 : (5 : Int).toNat = 5 := rfl
  rw [heat_equation_dense_row_eq (1 / 10) 2 (by decide)]
  simp only [h5, List.range_succ, List.range_zero,
    List.nil_append, List.cons_append, List.map_cons, List.map_nil]
  norm_num [e0, e1, e2, e3, e4]

/-- C8 fails at `n = 1` (here with `alpha = 1/10`, one process owning `[0, 1)`):
row `0` takes the `i == 0` branch, which names column `1`, outside `[0, 1)`;
the range test of the insert operation rejects the call and the builder
returns the out-of-range error. -/
theorem heat_equation_single_row_out_of_range :
    heat_equation_staged 1 (1 / 10) 0 1
      = [(0, [(0, 1 + 2 * (1 / 10)), (1, -(1 / 10))])] ∧
    indicesInRange 1 1 0 [(0, 1 + 2 * (1 / 10)), (1, -(1 / 10))] = false ∧
    create_heat_equation_matrix (checkedMat 0 1) 1 (1 / 10)
      = .error PETSC_ERR_ARG_OUTOFRANGE := by
  have hrows : ownedRows 0 1 = [0] := by
    rw [ownedRows_of_lt (by decide), ownedRows_of_le (by decide)]
  have hrange : indicesInRange 1 1 0 [(0, 1 + 2 * (1 / 10)), (1, -(1 / 10))] = false := by
    simp [indicesInRange]
  refine ⟨?_, hrange, ?_⟩
  · rw [heat_equation_staged_eq, hrows]
    simp [heat_equation_row]
  · have h := heat_equation_loop_eq (checkedMat 0 1) 1 (1 / 10) 1 _ 0 ⟨1, 1, [], false⟩ rfl
    rw [hrows] at h
    unfold create_heat_equation_matrix
    simp only [checkedMat] at h ⊢
    rw [h]
    simp [stageRows, heat_equation_row, indicesInRange]

/-- C10: neither builder stages a position twice.  For `nx, ny ≥ 1` the columns
staged for a row of `[0, nx*ny)` by `create_poisson2d_matrix` are pairwise
distinct and lie in `[0, nx*ny)`; for `n ≥ 1` the columns staged for a row of
`[0, n)` by `create_heat_equation_matrix` are pairwise distinct; hence every
assembled entry is the same under overwrite (`INSERT_VALUES`) and under
addition. -/
theorem no_position_staged_twice (nx ny n : Int) (alpha : ℚ) (hnx : 1 ≤ nx) (hny : 1 ≤ ny)
    (hn : 1 ≤ n) :
    (∀ i : Int, 0 ≤ i → i < nx * ny →
      ((stagedRow (poisson2d_staged nx ny 0 (nx * ny)) i).map (fun p => p.1)).Nodup ∧
      ∀ p ∈ stagedRow (poisson2d_staged nx ny 0 (nx * ny)) i, 0 ≤ p.1 ∧ p.1 < nx * ny) ∧
    (∀ i : Int, 0 ≤ i → i < n →
      ((stagedRow (heat_equation_staged n alpha 0 n) i).map (fun p => p.1)).Nodup) ∧
    (∀ i j : Int, assembledInsert (logEntries (poisson2d_staged nx ny 0 (nx * ny))) i j
      = assembledAdd (logEntries (poisson2d_staged nx ny 0 (nx * ny))) i j) ∧
    (∀ i j : Int, assembledInsert (logEntries (heat_equation_staged n alpha 0 n)) i j
      = assembledAdd (logEntries (heat_equation_staged n alpha 0 n)) i j) := by
  have _ := hny
  have _ := hn
  refine ⟨fun i hi0 hi => ⟨stagedRow_poisson2d_nodup hnx i, ?_⟩,
    fun i _ _ => stagedRow_heat_equation_nodup n alpha i,
    fun i j => assembledInsert_eq_assembledAdd j (stagedRow_poisson2d_nodup hnx i),
    fun i j => assembledInsert_eq_assembledAdd j (stagedRow_heat_equation_nodup n alpha i)⟩
  rw [poisson2d_staged_eq, stagedRow_ownedRows, if_pos ⟨hi0, hi⟩]
  exact poisson2d_row_inRange hnx hi0 hi

/-- C10 on the `3 × 3` grid and the heat matrix of size `5`. -/
theorem no_position_staged_twice_witness :
    ((1 : Int) ≤ 3 ∧ (1 : Int) ≤ 5) ∧
    (∀ i j : Int, assembledInsert (logEntries (poisson2d_staged 3 3 0 (3 * 3))) i j
      = assembledAdd (logEntries (poisson2d_staged 3 3 0 (3 * 3))) i j) :=
  ⟨⟨by decide, by decide⟩,
    (no_position_staged_twice 3 3 5 (1 / 10) (by decide) (by decide) (by decide)).2.2.1⟩

/-- C7: the staged matrices are symmetric.  For `nx, ny ≥ 1` and `i, j` in
`[0, nx*ny)` the Poisson builder stages an entry at `(i, j)` iff it stages one
at `(j, i)`, with the same value, and the assembled entries agree; for `n ≥ 2`,
every `alpha` and `i, j` in `[0, n)` the same holds for the heat builder. -/
theorem stencil_matrices_symmetric (nx ny n : Int) (alpha : ℚ) (hnx : 1 ≤ nx) (hny : 1 ≤ ny)
    (hn : 2 ≤ n) :
    (∀ i j : Int, 0 ≤ i → i < nx * ny → 0 ≤ j → j < nx * ny →
      (∀ v : ℚ, (j, v) ∈ stagedRow (poisson2d_staged nx ny 0 (nx * ny)) i ↔
        (i, v) ∈ stagedRow (poisson2d_staged nx ny 0 (nx * ny)) j) ∧
      assembledInsert (logEntries (poisson2d_staged nx ny 0 (nx * ny))) i j
        = assembledInsert (logEntries (poisson2d_staged nx ny 0 (nx * ny))) j i) ∧
    (∀ i j : Int, 0 ≤ i → i < n → 0 ≤ j → j < n →
      (∀ v : ℚ, (j, v) ∈ stagedRow (heat_equation_staged n alpha 0 n) i ↔
        (i, v) ∈ stagedRow (heat_equation_staged n alpha 0 n) j) ∧
      assembledInsert (logEntries (heat_equation_staged n alpha 0 n)) i j
        = assembledInsert (logEntries (heat_equation_staged n alpha 0 n)) j i) := by
  have _ := hny
  have _ := hn
  constructor
  · intro i j hi0 hi hj0 hj
    have hmem : ∀ v : ℚ, (j, v) ∈ stagedRow (poisson2d_staged nx ny 0 (nx * ny)) i ↔
        (i, v) ∈ stagedRow (poisson2d_staged nx ny 0 (nx * ny)) j := by
      intro v
      rw [poisson2d_staged_eq, stagedRow_ownedRows, stagedRow_ownedRows, if_pos ⟨hi0, hi⟩,
        if_pos ⟨hj0, hj⟩]
      exact ⟨poisson2d_row_symm_dir hnx hi0 hi hj0 hj v,
        poisson2d_row_symm_dir hnx hj0 hj hi0 hi v⟩
    exact ⟨hmem, assembledInsert_symm (stagedRow_poisson2d_nodup hnx i)
      (stagedRow_poisson2d_nodup hnx j) hmem⟩
  · intro i j hi0 hi hj0 hj
    have hmem : ∀ v : ℚ, (j, v) ∈ stagedRow (heat_equation_staged n alpha 0 n) i ↔
        (i, v) ∈ stagedRow (heat_equation_staged n alpha 0 n) j := by
      intro v
      rw [stagedRow_heat_equation alpha hi0 hi, stagedRow_heat_equation alpha hj0 hj]
      exact heat_equation_row_symm alpha hi0 hi hj0 hj v
    exact ⟨hmem, assembledInsert_symm (stagedRow_heat_equation_nodup n alpha i)
      (stagedRow_heat_equation_nodup n alpha j) hmem⟩

/-- C7 on the `3 × 3` grid, rows `4` and `5`, and the heat matrix of size `5`. -/
theorem stencil_matrices_symmetric_witness :
    ((1 : Int) ≤ 3 ∧ (2 : Int) ≤ 5) ∧
    assembledInsert (logEntries (poisson2d_staged 3 3 0 (3 * 3))) 4 5
      = assembledInsert (logEntries (poisson2d_staged 3 3 0 (3 * 3))) 5 4 :=
  ⟨⟨by decide, by decide⟩,
    ((stencil_matrices_symmetric 3 3 5 (1 / 10) (by decide) (by decide) (by decide)).1 4 5
      (by decide) (by decide) (by decide) (by decide)).2⟩

/-- C9: for `n ≥ 2`, `alpha ≥ 0` and every row `i` of `[0, n)` of the heat
matrix, the diagonal entry is `1 + 2*alpha`, the absolute values of the
off-diagonal entries of the row sum to `alpha` on the two boundary rows and to
`2*alpha` on interior rows, and that sum is strictly below the absolute value
of the diagonal entry. -/
theorem heat_equation_diagonally_dominant (n : Int) (alpha : ℚ) (i : Int) (hn : 2 ≤ n)
    (hα : 0 ≤ alpha) (hi0 : 0 ≤ i) (hi : i < n) :
    heat_equation_matrix n alpha i i = 1 + 2 * alpha ∧
    offDiagonalAbsSum n (heat_equation_matrix n alpha) i
      = (if i = 0 ∨ i = n - 1 then alpha else 2 * alpha) ∧
    offDiagonalAbsSum n (heat_equation_matrix n alpha) i < |heat_equation_matrix n alpha i i| := by
  have hd : heat_equation_matrix n alpha i i = 1 + 2 * alpha := by
    unfold heat_equation_matrix
    rw [heat_equation_entry alpha hi0 hi hi0 hi, if_pos rfl]
  have hs : offDiagonalAbsSum n (heat_equation_matrix n alpha) i
      = (if i = 0 ∨ i = n - 1 then alpha else 2 * alpha) := by
    rw [offDiagonalAbsSum_tridiagonal (heat_equation_matrix n alpha) hα hi0 hi
      (fun j hj0 hj => heat_equation_entry alpha hi0 hi hj0 hj)]
    by_cases h0 : i = 0
    · rw [if_neg (by omega), if_pos (by omega), if_pos (Or.inl h0)]
      ring
    · by_cases h1 : i = n - 1
      · rw [if_pos (by omega), if_neg (by omega), if_pos (Or.inr h1)]
        ring
      · rw [if_pos (by omega), if_pos (by omega), if_neg (by omega)]
        ring
  refine ⟨hd, hs, ?_⟩
  rw [hs, hd, abs_of_nonneg (by linarith)]
  split_ifs <;> linarith

/-- C9 at `n = 5`, `alpha = 1/10`, row `2`. -/
theorem heat_equation_diagonally_dominant_witness :
    ((2 : Int) ≤ 5 ∧ (0 : ℚ) ≤ 1 / 10) ∧
    offDiagonalAbsSum 5 (heat_equation_matrix 5 (1 / 10)) 2
      < |heat_equation_matrix 5 (1 / 10) 2 2| :=
  ⟨⟨by decide, by norm_num⟩,
    (heat_equation_diagonally_dominant 5 (1 / 10) 2 (by decide) (by norm_num) (by decide)
      (by decide)).2.2⟩

/-- C6: on a process owning `[Istart, Iend)` each builder issues inserts only
for rows of `[Istart, Iend)`, exactly one per owned row, and what it stages for
a row is the same on every process owning that row.  Hence, for ownership
ranges that tile `[0, n)`, the logs of all processes concatenated in rank order
are the log of a single process owning `[0, n)`, and every row of `[0, n)`
receives exactly one insert.  On a range inside `[0, n)` the checked matrix
object accepts every insert of the Poisson builder, and of the heat builder
when `n ≥ 2`, so the log is what the library receives. -/
theorem ownership_partition (nx ny n : Int) (alpha : ℚ) (Istart Iend : Int)
    (rsP rsH : List (Int × Int)) (hP : tilesRange rsP 0 (nx * ny)) (hH : tilesRange rsH 0 n) :
    ((∀ c ∈ poisson2d_staged nx ny Istart Iend, Istart ≤ c.1 ∧ c.1 < Iend) ∧
     (∀ i : Int, Istart ≤ i → i < Iend →
        insertCalls (poisson2d_staged nx ny Istart Iend) i = 1 ∧
        ∀ s e : Int, s ≤ i → i < e →
          stagedRow (poisson2d_staged nx ny Istart Iend) i
            = stagedRow (poisson2d_staged nx ny s e) i) ∧
     (rsP.map (fun r => poisson2d_staged nx ny r.1 r.2)).flatten
        = poisson2d_staged nx ny 0 (nx * ny) ∧
     (∀ i : Int, 0 ≤ i → i < nx * ny →
        insertCalls (rsP.map (fun r => poisson2d_staged nx ny r.1 r.2)).flatten i = 1) ∧
     (1 ≤ nx → 0 ≤ Istart → Iend ≤ nx * ny →
        create_poisson2d_matrix (checkedMat Istart Iend) nx ny
          = .ok ⟨nx * ny, nx * ny, logEntries (poisson2d_staged nx ny Istart Iend), true⟩)) ∧
    ((∀ c ∈ heat_equation_staged n alpha Istart Iend, Istart ≤ c.1 ∧ c.1 < Iend) ∧
     (∀ i : Int, Istart ≤ i → i < Iend →
        insertCalls (heat_equation_staged n alpha Istart Iend) i = 1 ∧
        ∀ s e : Int, s ≤ i → i < e →
          stagedRow (heat_equation_staged n alpha Istart Iend) i
            = stagedRow (heat_equation_staged n alpha s e) i) ∧
     (rsH.map (fun r => heat_equation_staged n alpha r.1 r.2)).flatten
        = heat_equation_staged n alpha 0 n ∧
     (∀ i : Int, 0 ≤ i → i < n →
        insertCalls (rsH.map (fun r => heat_equation_staged n alpha r.1 r.2)).flatten i = 1) ∧
     (2 ≤ n → 0 ≤ Istart → Iend ≤ n →
        create_heat_equation_matrix (checkedMat Istart Iend) n alpha
          = .ok ⟨n, n, logEntries (heat_equation_staged n alpha Istart Iend), true⟩)) := by
  have hPu : (rsP.map (fun r => poisson2d_staged nx ny r.1 r.2)).flatten
      = poisson2d_staged nx ny 0 (nx * ny) := by
    simp only [poisson2d_staged_eq]
    exact flatten_tilesRange (fun i => (i, poisson2d_row nx ny i)) rsP 0 (nx * ny) hP
  have hHu : (rsH.map (fun r => heat_equation_staged n alpha r.1 r.2)).flatten
      = heat_equation_staged n alpha 0 n := by
    simp only [heat_equation_staged_eq]
    exact flatten_tilesRange (fun i => (i, heat_equation_row n alpha i)) rsH 0 n hH
  refine ⟨⟨?_, ?_, hPu, ?_, fun h1 h2 h3 => create_poisson2d_matrix_checkedMat h1 h2 h3⟩,
    ⟨?_, ?_, hHu, ?_, fun h1 h2 h3 => create_heat_equation_matrix_checkedMat alpha h1 h2 h3⟩⟩
  · intro c hc
    rw [poisson2d_staged_eq] at hc
    exact mem_staged_row hc
  · intro i hs he
    refine ⟨?_, fun s e hs2 he2 => ?_⟩
    · rw [poisson2d_staged_eq, insertCalls_ownedRows, if_pos ⟨hs, he⟩]
    · rw [poisson2d_staged_eq, poisson2d_staged_eq, stagedRow_ownedRows, stagedRow_ownedRows,
        if_pos ⟨hs, he⟩, if_pos ⟨hs2, he2⟩]
  · intro i hi0 hi
    rw [hPu, poisson2d_staged_eq, insertCalls_ownedRows, if_pos ⟨hi0, hi⟩]
  · intro c hc
    rw [heat_equation_staged_eq] at hc
    exact mem_staged_row hc
  · intro i hs he
    refine ⟨?_, fun s e hs2 he2 => ?_⟩
    · rw [heat_equation_staged_eq, insertCalls_ownedRows, if_pos ⟨hs, he⟩]
    · rw [heat_equation_staged_eq, heat_equation_staged_eq, stagedRow_ownedRows,
        stagedRow_ownedRows, if_pos ⟨hs, he⟩, if_pos ⟨hs2, he2⟩]
  · intro i hi0 hi
    rw [hHu, heat_equation_staged_eq, insertCalls_ownedRows, if_pos ⟨hi0, hi⟩]

/-- C6 with three processes on the `3 × 3` grid (ranges `[0,3)`, `[3,6)`,
`[6,9)`) and two on the heat matrix of size `5` (ranges `[0,3)`, `[3,5)`). -/
theorem ownership_partition_witness :
    (tilesRange [(0, 3), (3, 6), (6, 9)] 0 (3 * 3) ∧ tilesRange [(0, 3), (3, 5)] 0 5) ∧
    ([(0, 3), (3, 6), (6, 9)].map (fun r => poisson2d_staged 3 3 r.1 r.2)).flatten
      = poisson2d_staged 3 3 0 (3 * 3) ∧
    ([(0, 3), (3, 5)].map (fun r => heat_equation_staged 5 (1 / 10) r.1 r.2)).flatten
      = heat_equation_staged 5 (1 / 10) 0 5 :=
  have hP : tilesRange [(0, 3), (3, 6), (6, 9)] 0 (3 * 3) := by
    simp [tilesRange]
  have hH : tilesRange [(0, 3), (3, 5)] 0 5 := by
    simp [tilesRange]
  ⟨⟨hP, hH⟩,
    (ownership_partition 3 3 5 (1 / 10) 0 3 [(0, 3), (3, 6), (6, 9)] [(0, 3), (3, 5)]
      hP hH).1.2.2.1,
    (ownership_partition 3 3 5 (1 / 10) 0 3 [(0, 3), (3, 6), (6, 9)] [(0, 3), (3, 5)]
      hP hH).2.2.2.1⟩

/-! ## Claim on the matrix-file driver -/

/-- C5: in `main` of read_matrix_file.c, whatever the collaborators return, a
loaded matrix with `m ≠ n` is never followed by a call of `create_rhs_vector`,
`solver_create`, `solver_setup` or `solver_solve`; when loading succeeded and
`m ≠ n` the program prints the non-square error and returns status `1` right
after `MatGetSize`; when loading succeeded and `m = n` the error is not
printed and `create_rhs_vector(n)` is called next, and if every call succeeds
the whole pipeline runs and the status is `0`. -/
theorem read_matrix_file_square_check (w : World) :
    (w.m ≠ w.n → ∀ c ∈ (read_matrix_file_main w).2, isSolveCall c = false) ∧
    ((∀ c ∈ loadingCalls, w.ret c = 0) → w.m ≠ w.n →
      read_matrix_file_main w = (1, loadingCalls ++ [Call.PetscPrintf notSquareMessage])) ∧
    ((∀ c ∈ loadingCalls, w.ret c = 0) → w.m = w.n →
      Call.PetscPrintf notSquareMessage ∉ (read_matrix_file_main w).2 ∧
      ∃ rest : List Call, (read_matrix_file_main w).2
        = loadingCalls ++ Call.create_rhs_vector w.n :: rest) ∧
    ((∀ c : Call, w.ret c = 0) → w.m = w.n →
      read_matrix_file_main w
        = (0, loadingCalls ++ solvingCalls w.n ++ [Call.solver_finalize])) := by
  have hload : (∀ c ∈ loadingCalls, w.ret c = 0) →
      callsCHKERRQ w [Call.solver_initialize, Call.PetscOptionsGetString] []
        = (0, [Call.solver_initialize, Call.PetscOptionsGetString]) ∧
      read_matrix_from_mm w [Call.solver_initialize, Call.PetscOptionsGetString,
          Call.PetscPrintf readingMessage]
        = (0, [Call.solver_initialize, Call.PetscOptionsGetString,
            Call.PetscPrintf readingMessage, Call.PetscViewerBinaryOpen, Call.MatCreate,
            Call.MatSetFromOptions, Call.MatLoad, Call.PetscViewerDestroy]) ∧
      callsCHKERRQ w [Call.MatGetSize] [Call.solver_initialize, Call.PetscOptionsGetString,
            Call.PetscPrintf readingMessage, Call.PetscViewerBinaryOpen, Call.MatCreate,
            Call.MatSetFromOptions, Call.MatLoad, Call.PetscViewerDestroy]
        = (0, loadingCalls) := by
    intro h
    refine ⟨?_, ?_, ?_⟩
    · rw [callsCHKERRQ_of_succeed w _ _ (fun c hc => h c (by
        simp only [loadingCalls, List.mem_cons, List.mem_singleton, List.not_mem_nil,
          or_false] at hc ⊢
        tauto))]
      rfl
    · unfold read_matrix_from_mm
      rw [callsCHKERRQ_of_succeed w _ _ (fun c hc => h c (by
        simp only [loadingCalls, List.mem_cons, List.mem_singleton, List.not_mem_nil,
          or_false] at hc ⊢
        tauto))]
      rfl
    · rw [callsCHKERRQ_of_succeed w _ _ (fun c hc => h c (by
        simp only [loadingCalls, List.mem_cons, List.mem_singleton, List.not_mem_nil,
          or_false] at hc ⊢
        tauto))]
      rfl
  refine ⟨read_matrix_file_main_notSquare_trace w, ?_, ?_, ?_⟩
  · intro h hmn
    obtain ⟨e1, e2, e3⟩ := hload h
    unfold read_matrix_file_main
    simp only [e1, List.cons_append, List.nil_append, e2, e3, ne_eq, not_true_eq_false,
      if_false, hmn, not_false_eq_true, if_true]
  · intro h hmn
    obtain ⟨e1, e2, e3⟩ := hload h
    have hmain : read_matrix_file_main w =
        if (callsCHKERRQ w (solvingCalls w.n) loadingCalls).1 ≠ 0 then
          callsCHKERRQ w (solvingCalls w.n) loadingCalls
        else (w.ret Call.solver_finalize,
          (callsCHKERRQ w (solvingCalls w.n) loadingCalls).2 ++ [Call.solver_finalize]) := by
      unfold read_matrix_file_main
      simp only [e1, List.cons_append, List.nil_append, e2, e3, ne_eq, not_true_eq_false,
        if_false, hmn]
      rfl
    have htr := callsCHKERRQ_trace w (solvingCalls w.n) loadingCalls
    obtain ⟨rest, hrest⟩ := callsCHKERRQ_cons_trace w (Call.create_rhs_vector w.n)
      [Call.solver_create, Call.solver_set_preconditioner, Call.solver_setup,
        Call.solver_solve, Call.solver_print_info, Call.solver_destroy, Call.MatDestroy,
        Call.VecDestroy] loadingCalls
    have hnot : ∀ c, c ∈ loadingCalls ∨ c ∈ solvingCalls w.n ∨ c = Call.solver_finalize →
        c ≠ Call.PetscPrintf notSquareMessage := by
      intro c hc
      simp only [loadingCalls, solvingCalls, List.mem_cons, List.mem_singleton,
        List.not_mem_nil, or_false] at hc
      rcases hc with (h | h | h | h | h | h | h | h | h) |
        (h | h | h | h | h | h | h | h | h) | h <;> subst h <;> simp [readingMessage,
          notSquareMessage]
    rw [hmain]
    split_ifs with hr
    · refine ⟨fun hmem => ?_, rest, hrest⟩
      rcases htr _ hmem with h | h
      · exact hnot _ (Or.inl h) rfl
      · exact hnot _ (Or.inr (Or.inl h)) rfl
    · refine ⟨fun hmem => ?_, rest ++ [Call.solver_finalize], ?_⟩
      · rcases List.mem_append.mp hmem with h | h
        · rcases htr _ h with h | h
          · exact hnot _ (Or.inl h) rfl
          · exact hnot _ (Or.inr (Or.inl h)) rfl
        · exact hnot _ (Or.inr (Or.inr rfl)) (List.mem_singleton.mp h).symm
      · show (callsCHKERRQ w (solvingCalls w.n) loadingCalls).2 ++ [Call.solver_finalize] = _
        have hrest' : (callsCHKERRQ w (solvingCalls w.n) loadingCalls).2
            = loadingCalls ++ Call.create_rhs_vector w.n :: rest := hrest
        rw [hrest']
        simp
  · intro h hmn
    obtain ⟨e1, e2, e3⟩ := hload (fun c _ => h c)
    have e4 := callsCHKERRQ_of_succeed w (solvingCalls w.n) loadingCalls (fun c _ => h c)
    unfold solvingCalls at e4
    unfold read_matrix_file_main
    simp only [e1, List.cons_append, List.nil_append, e2, e3, ne_eq, not_true_eq_false,
      if_false, hmn, e4, h]
    rfl

/-- C5 for a file declaring a `4 × 5` matrix, every call succeeding. -/
theorem read_matrix_file_square_check_witness :
    ((∀ c ∈ loadingCalls, (allSucceed 4 5).ret c = 0) ∧ (allSucceed 4 5).m ≠ (allSucceed 4 5).n) ∧
    read_matrix_file_main (allSucceed 4 5)
      = (1, loadingCalls ++ [Call.PetscPrintf notSquareMessage]) :=
  ⟨⟨fun _ _ => rfl, by decide⟩,
    (read_matrix_file_square_check (allSucceed 4 5)).2.1 (fun _ _ => rfl) (by decide)⟩

end PetscExamples
